import Mathlib

/-!
Verification development for the catslap template engine.

Python strings are modelled as `List Char` (`Str`); Python dicts as
association lists with insertion-order-preserving update; fallible code
returns `Except`.  Each definition mirrors the function of the same name
in the repository sources (`catslap/utils/xml.py`, `catslap/base/*.py`,
`catslap/docx/document.py`).
-/

namespace Catslap

/-- Python strings are modelled as lists of characters. -/
abbrev Str := List Char

/-- Conversion from a Lean string literal to the `Str` model. -/
def strL (s : String) : Str := s.toList

/-- The apostrophe character, written via its code point. -/
def aposC : Char := Char.ofNat 39

/-- The backtick character, written via its code point. -/
def backtickC : Char := Char.ofNat 96

/-- Scanner for `replaceAll`; the fuel argument only drives structural
recursion and is always at least the length of the scanned string. -/
def replaceAllF (pat rep : Str) : Nat → Str → Str
  | 0, s => s
  | _ + 1, [] => []
  | fuel + 1, c :: rest =>
    if pat ≠ [] ∧ pat.isPrefixOf (c :: rest) then
      rep ++ replaceAllF pat rep fuel ((c :: rest).drop pat.length)
    else
      c :: replaceAllF pat rep fuel rest

/-- Python `str.replace(pat, rep)`: left-to-right, non-overlapping, the
replacement is not rescanned.  For an empty pattern the scan just copies
(the Python corner case of empty patterns never occurs in the sources). -/
def replaceAll (pat rep : Str) (s : Str) : Str :=
  replaceAllF pat rep s.length s

/-- Python `value.find(pat, start)` on our model: the least index `i ≥ start`
with `pat` a prefix of `s.drop i`, or `none`.  (Python returns -1 for
"not found"; we use `Option`.) -/
def findFromAux (s pat : Str) : Nat → Nat → Option Nat
  | _, 0 => none
  | i, fuel + 1 =>
    if pat.isPrefixOf (s.drop i) then some i
    else findFromAux s pat (i + 1) fuel

/-- `findFrom s pat start`: first occurrence of `pat` in `s` at or after
`start` (as in Python `str.find` restricted to nonempty patterns). -/
def findFrom (s pat : Str) (start : Nat) : Option Nat :=
  findFromAux s pat start (s.length + 1 - start)

/-- Python slice `s[a:b]`. -/
def slice (s : Str) (a b : Nat) : Str := (s.take b).drop a

/-- Python slice `s[a:]`. -/
def sliceFrom (s : Str) (a : Nat) : Str := s.drop a

/-- Whitespace characters stripped by `text_util.trim` (space, tab, CR, LF). -/
def isWsChar (c : Char) : Bool :=
  c = ' ' ∨ c = Char.ofNat 9 ∨ c = Char.ofNat 13 ∨ c = Char.ofNat 10

/-- `text_util.trim` / Python `.strip(" \t\r\n")` (the BOM special case of the
source never occurs in the fragments we treat). -/
def pyStrip (s : Str) : Str :=
  (s.dropWhile isWsChar).reverse.dropWhile isWsChar |>.reverse

/-- Association-list get, as Python `dict.get`: first binding wins. -/
def dictGet {α : Type} (m : List (Str × α)) (k : Str) : Option α :=
  match m with
  | [] => none
  | (k0, v) :: rest => if k0 = k then some v else dictGet rest k

/-- Association-list set with Python-dict semantics: update in place when the
key exists (keeping insertion order), else append at the end. -/
def dictSet {α : Type} (m : List (Str × α)) (k : Str) (v : α) : List (Str × α) :=
  match m with
  | [] => [(k, v)]
  | (k0, v0) :: rest =>
    if k0 = k then (k0, v) :: rest else (k0, v0) :: dictSet rest k v

/-- Python `del d[k]` (removes the first binding; no-op when absent, matching
`XmlTag.remove_attr`, which checks presence first). -/
def dictRemove {α : Type} (m : List (Str × α)) (k : Str) : List (Str × α) :=
  match m with
  | [] => []
  | (k0, v0) :: rest =>
    if k0 = k then rest else (k0, v0) :: dictRemove rest k

/-- Attribute values carried by `XmlTag.attrs`: the parser stores strings, and
`WordDocument.__reassign_ids` stores Python ints. -/
inductive AttrV where
  | s (v : Str)
  | i (v : Int)
deriving DecidableEq, Repr

/-- The XML tree model of `catslap/utils/xml.py`: `XmlTag` (name, ordered
attributes, ordered children) and `XmlText` (one owned string buffer).
Parent back-references are lookup-only in the source and are not modelled. -/
inductive XmlNode where
  | tag (name : Str) (attrs : List (Str × Option AttrV)) (children : List XmlNode)
  | text (content : Str)

namespace XmlNode

/-- Children of a node (`[]` for a text node). -/
def childrenOf : XmlNode → List XmlNode
  | tag _ _ cs => cs
  | text _ => []

/-- Name of a node (text nodes have no name in the source). -/
def nameOf : XmlNode → Option Str
  | tag n _ _ => some n
  | text _ => none

mutual

/-- `XmlElement.clone(deep=True)` produces a structurally equal copy sharing
no node identity; on the immutable model it rebuilds the same value. -/
def cloneDeep : XmlNode → XmlNode
  | tag n attrs cs => tag n attrs (cloneDeepList cs)
  | text c => text c

/-- Deep clone of a node list (the recursion of `clone` over `elements`). -/
def cloneDeepList : List XmlNode → List XmlNode
  | [] => []
  | e :: rest => cloneDeep e :: cloneDeepList rest

end

mutual

theorem cloneDeep_eq : (e : XmlNode) → cloneDeep e = e
  | tag n attrs cs => by rw [cloneDeep, cloneDeepList_eq cs]
  | text _ => rfl

theorem cloneDeepList_eq : (l : List XmlNode) → cloneDeepList l = l
  | [] => rfl
  | e :: rest => by rw [cloneDeepList, cloneDeep_eq e, cloneDeepList_eq rest]

end

end XmlNode

/-- `XmlParser.escape_entities` (string case): escapes `&`, `<`, `>`, in that
order, replacing each with its entity. -/
def escapeEntities (row : Str) : Str :=
  let row := replaceAll (strL "&") (strL "&amp;") row
  let row := replaceAll (strL "<") (strL "&lt;") row
  let row := replaceAll (strL ">") (strL "&gt;") row
  row

/-- `XmlParser.escape_attr_value` (string case): escapes `&` and `"` only. -/
def escapeAttrValue (row : Str) : Str :=
  let row := replaceAll (strL "&") (strL "&amp;") row
  let row := replaceAll (strL "\"") (strL "&quot;") row
  row

/-- `XmlParser.resolve_entities` (string case): resolves the two OOXML break
escapes and the six basic entities, `&amp;` deliberately last. -/
def resolveEntities (row : Str) : Str :=
  let row := replaceAll (strL "&#xD;") (strL "\r") row
  let row := replaceAll (strL "&#xA;") (strL "\n") row
  let row := replaceAll (strL "&lt;") (strL "<") row
  let row := replaceAll (strL "&gt;") (strL ">") row
  let row := replaceAll (strL "&quot;") (strL "\"") row
  let row := replaceAll (strL "&apos;") [aposC] row
  let row := replaceAll (strL "&nbsp;") (strL " ") row
  let row := replaceAll (strL "&amp;") (strL "&") row
  row

/-- Expansion of a string through a per-character replacement table; used to
characterize the sequential `replace` chains of the escape functions. -/
def charExpand (f : Char → Str) : Str → Str
  | [] => []
  | c :: rest => f c ++ charExpand f rest

theorem charExpand_append (f : Char → Str) (x y : Str) :
    charExpand f (x ++ y) = charExpand f x ++ charExpand f y := by
  induction x with
  | nil => rfl
  | cons c rest ih => simp [charExpand, ih]

theorem charExpand_comp (g f : Char → Str) (s : Str) :
    charExpand g (charExpand f s) = charExpand (fun c => charExpand g (f c)) s := by
  induction s with
  | nil => rfl
  | cons c rest ih => simp [charExpand, charExpand_append, ih]

theorem replaceAllF_single (a : Char) (rep : Str) :
    ∀ (s : Str) (fuel : Nat), s.length ≤ fuel →
      replaceAllF [a] rep fuel s = charExpand (fun c => if c = a then rep else [c]) s := by
  intro s
  induction s with
  | nil =>
    intro fuel _
    cases fuel <;> rfl
  | cons c rest ih =>
    intro fuel hf
    cases fuel with
    | zero => simp at hf
    | succ fuel =>
      have hrest : rest.length ≤ fuel := by
        simp only [List.length_cons] at hf; omega
      by_cases hca : c = a
      · subst hca
        have hpre : List.isPrefixOf [c] (c :: rest) = true := by
          simp [List.isPrefixOf]
        simp [replaceAllF, hpre, charExpand, ih fuel hrest]
      · have hpre : List.isPrefixOf [a] (c :: rest) = false := by
          simp [List.isPrefixOf]
          exact fun h => absurd h.symm hca
        simp [replaceAllF, hpre, charExpand, ih fuel hrest, hca]

theorem replaceAll_single (a : Char) (rep : Str) (s : Str) :
    replaceAll [a] rep s = charExpand (fun c => if c = a then rep else [c]) s :=
  replaceAllF_single a rep s s.length (Nat.le_refl _)

/-- Per-character escape table for text content, written down independently
from the spec sentence of C6: `&`, `<`, `>` each map to their entity, every
other character (the apostrophe included) is left alone. -/
def escTextChar (c : Char) : Str :=
  if c = '&' then strL "&amp;"
  else if c = '<' then strL "&lt;"
  else if c = '>' then strL "&gt;"
  else [c]

/-- Per-character escape table for attribute values as the code implements
them: only `&` and `"` are escaped. -/
def escAttrChar (c : Char) : Str :=
  if c = '&' then strL "&amp;"
  else if c = '"' then strL "&quot;"
  else [c]

theorem escapeEntities_charwise (s : Str) :
    escapeEntities s = charExpand escTextChar s := by
  have h1 : strL "&" = ['&'] := rfl
  have h2 : strL "<" = ['<'] := rfl
  have h3 : strL ">" = ['>'] := rfl
  unfold escapeEntities
  simp only [h1, h2, h3, replaceAll_single, charExpand_comp]
  apply congrFun
  apply congrArg
  funext c
  by_cases hamp : c = '&'
  · subst hamp; rfl
  · by_cases hlt : c = '<'
    · subst hlt; rfl
    · by_cases hgt : c = '>'
      · subst hgt; rfl
      · simp [hamp, hlt, hgt, charExpand, escTextChar]

theorem escapeAttrValue_charwise (s : Str) :
    escapeAttrValue s = charExpand escAttrChar s := by
  have h1 : strL "&" = ['&'] := rfl
  have h2 : strL "\"" = ['"'] := rfl
  unfold escapeAttrValue
  simp only [h1, h2, replaceAll_single, charExpand_comp]
  apply congrFun
  apply congrArg
  funext c
  by_cases hamp : c = '&'
  · subst hamp; rfl
  · by_cases hq : c = '"'
    · subst hq; rfl
    · simp [hamp, hq, charExpand, escAttrChar]

/-- Python `None`, a plain string, or an `XmlText` node: the run-time shapes
accepted by `XmlTag.add_text`. -/
inductive PyTextArg where
  | noneArg
  | str (s : Str)
  | textNode (content : Str)

/-- `XmlTag.add_element` (restricted to the only well-typed case): appends the
item to `elements` unconditionally — no merging with a trailing text node.
Calling it on a text node is impossible in the source (method of `XmlTag`). -/
def addElement (t : XmlNode) (item : XmlNode) : XmlNode :=
  match t with
  | .tag n a cs => .tag n a (cs ++ [item])
  | .text c => .text c

/-- The string tail of `XmlTag.add_text` (after entity resolution): the last
child, when it is a text node, absorbs the new text into its buffer;
otherwise a fresh text node is appended. -/
def addTextStr : XmlNode → Str → XmlNode
  | .text c, _ => .text c
  | .tag n a cs, s =>
    match cs.getLast? with
    | some (.text c) => .tag n a (cs.dropLast ++ [.text (c ++ s)])
    | _ => .tag n a (cs ++ [.text s])

/-- `XmlTag.add_text`: an `XmlText` argument is passed straight to
`add_element`; a string (or `None`, coerced to the empty string) gets its
entities resolved and is merged/appended by the string tail. -/
def addText (t : XmlNode) (arg : PyTextArg) : XmlNode :=
  match arg with
  | .textNode content => addElement t (.text content)
  | .noneArg => addTextStr t (resolveEntities [])
  | .str s => addTextStr t (resolveEntities s)

/-- `true` when no two text nodes sit next to each other in the list. -/
def noAdjacentTexts : List XmlNode → Bool
  | .text _ :: .text _ :: _ => false
  | _ :: rest => noAdjacentTexts rest
  | [] => true

theorem noAdj_addTextStr (n : Str) (a : List (Str × Option AttrV)) (s : Str) :
    ∀ cs, noAdjacentTexts cs = true →
      noAdjacentTexts ((addTextStr (.tag n a cs) s).childrenOf) = true := by
  intro cs
  induction cs with
  | nil => intro _; rfl
  | cons x rest ih =>
    intro hcs
    cases rest with
    | nil =>
      cases x with
      | text c => rfl
      | tag n1 a1 cs1 => rfl
    | cons b rest2 =>
      have hxb : ¬(∃ cx, x = XmlNode.text cx) ∨ ¬(∃ cb, b = XmlNode.text cb) := by
        cases x with
        | tag n1 a1 cs1 => exact Or.inl (by simp)
        | text cx =>
          cases b with
          | tag n2 a2 cs2 => exact Or.inr (by simp)
          | text cb => simp [noAdjacentTexts] at hcs
      have htail : noAdjacentTexts (b :: rest2) = true := by
        cases x with
        | tag n1 a1 cs1 => simpa [noAdjacentTexts] using hcs
        | text cx =>
          cases b with
          | text cb => simp [noAdjacentTexts] at hcs
          | tag n2 a2 cs2 => simpa [noAdjacentTexts] using hcs
      have ihtail := ih htail
      simp only [addTextStr, List.getLast?_cons_cons, List.dropLast_cons₂] at *
      cases hlast : (b :: rest2).getLast? with
      | some lastv =>
        cases lastv with
        | text c =>
          simp only [hlast] at ihtail ⊢
          cases x with
          | tag n1 a1 cs1 =>
            simpa [XmlNode.childrenOf, noAdjacentTexts] using ihtail
          | text cx =>
            have hbnot : ¬∃ cb, b = XmlNode.text cb := by
              rcases hxb with h | h
              · exact absurd ⟨cx, rfl⟩ h
              · exact h
            simp only [XmlNode.childrenOf] at ihtail ⊢
            cases rest2 with
            | nil =>
              simp only [List.getLast?_singleton, Option.some.injEq] at hlast
              subst hlast
              exact absurd ⟨c, rfl⟩ hbnot
            | cons b2 rest3 =>
              simp only [List.dropLast_cons₂, List.cons_append] at ihtail ⊢
              cases b with
              | text cb => exact absurd ⟨cb, rfl⟩ hbnot
              | tag n2 a2 cs2 => simpa [noAdjacentTexts] using ihtail
        | tag n2 a2 cs2 =>
          simp only [hlast] at ihtail ⊢
          simp only [XmlNode.childrenOf] at ihtail ⊢
          cases x with
          | tag n1 a1 cs1 => simpa [noAdjacentTexts] using ihtail
          | text cx =>
            cases rest2 with
            | nil =>
              simp only [List.getLast?_singleton, Option.some.injEq] at hlast
              subst hlast
              simp [noAdjacentTexts]
            | cons b2 rest3 =>
              cases b with
              | text cb =>
                rcases hxb with h | h
                · exact absurd ⟨cx, rfl⟩ h
                · exact absurd ⟨cb, rfl⟩ h
              | tag n3 a3 cs3 => simpa [noAdjacentTexts] using ihtail
      | none =>
        simp at hlast

/-- C9 counterexample input: a tag whose single child is a text node. -/
def c9Tag : XmlNode := XmlNode.tag (strL "w:t") [] [XmlNode.text (strL "x")]

/-- C9: passing a prebuilt `XmlText` to `add_text` appends it as a sibling of
the trailing text node instead of merging, so the tree ends up with two
adjacent text siblings — refuting the claim at this concrete input. -/
theorem claimC9_counterexample :
    noAdjacentTexts c9Tag.childrenOf = true ∧
      (addText c9Tag (PyTextArg.textNode (strL "y"))).childrenOf
        = [XmlNode.text (strL "x"), XmlNode.text (strL "y")] ∧
      noAdjacentTexts
        ((addText c9Tag (PyTextArg.textNode (strL "y"))).childrenOf) = false :=
  ⟨rfl, rfl, rfl⟩

/-- C9 (amended): inserting text *as a plain string* through `add_text`
appends into the trailing text node's buffer when the last child is a text
node, hence preserves the no-adjacent-text-siblings invariant; inserting a
prebuilt `XmlText` node (via `add_text` or `add_element`) does not. -/
theorem claimC9 (n : Str) (a : List (Str × Option AttrV)) (cs : List XmlNode)
    (s : Str) (h : noAdjacentTexts cs = true) :
    noAdjacentTexts ((addText (.tag n a cs) (PyTextArg.str s)).childrenOf) = true := by
  unfold addText
  exact noAdj_addTextStr n a (resolveEntities s) cs h

/-- C9 witness: the amended statement applied at a concrete tag and string. -/
theorem claimC9_witness :
    noAdjacentTexts [XmlNode.text (strL "x")] = true ∧
      noAdjacentTexts
        ((addText (.tag (strL "w:t") [] [XmlNode.text (strL "x")])
          (PyTextArg.str (strL "y"))).childrenOf) = true :=
  ⟨rfl, claimC9 (strL "w:t") [] [XmlNode.text (strL "x")] (strL "y") rfl⟩

/-- C6 counterexample: on the input `<`, the attribute-value escaper leaves
the character unescaped, while the claim demands `&lt;`. -/
theorem claimC6_counterexample :
    escapeAttrValue (strL "<") = strL "<" ∧ escapeAttrValue (strL "<") ≠ strL "&lt;" := by
  exact ⟨rfl, by decide⟩

/-- C6 (amended): text content escapes exactly `&`, `<`, `>`; attribute
values escape exactly `&` and `"` (not `<` or `>`); no other character (the
apostrophe in particular) is escaped in either context.  Stated as exact
per-character characterizations of both escape functions. -/
theorem claimC6 (s : Str) :
    escapeEntities s = charExpand escTextChar s ∧
      escapeAttrValue s = charExpand escAttrChar s :=
  ⟨escapeEntities_charwise s, escapeAttrValue_charwise s⟩

/-- C7: entity resolution maps each supported escape to its literal character
and resolves `&amp;` last, so `&amp;lt;` becomes `&lt;` and not `<`. -/
theorem claimC7 :
    resolveEntities (strL "&amp;lt;") = strL "&lt;" ∧
      resolveEntities (strL "&amp;lt;") ≠ strL "<" ∧
      resolveEntities (strL "&amp;gt;") = strL "&gt;" ∧
      resolveEntities (strL "&#xD;") = strL "\r" ∧
      resolveEntities (strL "&#xA;") = strL "\n" ∧
      resolveEntities (strL "&lt;") = strL "<" ∧
      resolveEntities (strL "&gt;") = strL ">" ∧
      resolveEntities (strL "&quot;") = strL "\"" ∧
      resolveEntities (strL "&apos;") = [aposC] ∧
      resolveEntities (strL "&nbsp;") = strL " " ∧
      resolveEntities (strL "&amp;") = strL "&" := by
  refine ⟨rfl, by decide, rfl, rfl, rfl, rfl, rfl, rfl, rfl, rfl, rfl⟩

/-! ## Python values and the expression resolver (`catslap/base/utils.py`) -/

/-- Python values as they occur in the data scopes: `None`, booleans, ints,
strings, lists and string-keyed maps (floats never occur in the claims
treated here and are left out of the model). -/
inductive PyVal where
  | none
  | bool (b : Bool)
  | int (n : Int)
  | str (s : Str)
  | list (xs : List PyVal)
  | dict (m : List (Str × PyVal))

mutual

/-- Python `str(v)` for the modelled values. -/
def pyStr : PyVal → Str
  | .none => strL "None"
  | .bool true => strL "True"
  | .bool false => strL "False"
  | .int n => strL (toString n)
  | .str s => s
  | .list xs => strL "[" ++ pyReprSeq xs ++ strL "]"
  | .dict m => [Char.ofNat 123] ++ pyReprMap m ++ [Char.ofNat 125]

/-- Python `repr(v)`: differs from `str` only on strings, which get quoted
(escaping inside `repr` of exotic strings is outside the modelled scope). -/
def pyRepr : PyVal → Str
  | .str s => [aposC] ++ s ++ [aposC]
  | .none => strL "None"
  | .bool true => strL "True"
  | .bool false => strL "False"
  | .int n => strL (toString n)
  | .list xs => strL "[" ++ pyReprSeq xs ++ strL "]"
  | .dict m => [Char.ofNat 123] ++ pyReprMap m ++ [Char.ofNat 125]

/-- Comma-separated `repr`s of the elements of a list. -/
def pyReprSeq : List PyVal → Str
  | [] => []
  | [v] => pyRepr v
  | v :: rest => pyRepr v ++ strL ", " ++ pyReprSeq rest

/-- Comma-separated `repr`s of the entries of a dict. -/
def pyReprMap : List (Str × PyVal) → Str
  | [] => []
  | [(k, v)] => [aposC] ++ k ++ [aposC] ++ strL ": " ++ pyRepr v
  | (k, v) :: rest => [aposC] ++ k ++ [aposC] ++ strL ": " ++ pyRepr v ++ strL ", " ++ pyReprMap rest

end

/-- Subscript literals of the restricted expression grammar. -/
inductive PyLit where
  | int (n : Int)
  | str (s : Str)

/-- The restricted dotted/indexed access expressions evaluated by
`resolve_param_value` (spec 4.3: "a restricted dotted/indexed access path
over the active scope"); arithmetic and comparisons are outside the
fragment the claims exercise. -/
inductive PyExpr where
  | name (x : Str)
  | attr (e : PyExpr) (field : Str)
  | index (e : PyExpr) (lit : PyLit)

/-- The Python exceptions relevant to `resolve_param_value`: the three caught
ones, the two uncaught subscript failures, and `SyntaxError` from `eval`. -/
inductive PyErr where
  | nameErr
  | attrErr
  | typeErr
  | keyErr
  | idxErr
  | syntaxErr
  | xmlErr
  | runtimeErr
  | fuelErr
deriving DecidableEq, Repr

/-- Python list subscripting, negative indices included: `IndexError` when
out of range. -/
def pyListIndex (xs : List PyVal) (i : Int) : Except PyErr PyVal :=
  let n : Int := xs.length
  if 0 ≤ i ∧ i < n then
    .ok (xs.getD i.toNat .none)
  else if -n ≤ i ∧ i < 0 then
    .ok (xs.getD (i + n).toNat .none)
  else
    .error .idxErr

/-- Python string subscripting (yields a one-character string). -/
def pyStrIndex (s : Str) (i : Int) : Except PyErr PyVal :=
  let n : Int := s.length
  if 0 ≤ i ∧ i < n then
    .ok (.str [s.getD i.toNat ' '])
  else if -n ≤ i ∧ i < 0 then
    .ok (.str [s.getD (i + n).toNat ' '])
  else
    .error .idxErr

/-- Evaluation of the restricted expressions exactly as Python `eval` runs
them over `DotDict` locals: a missing name raises `NameError` (the globals
hold only a disabled `__builtins__`); attribute access on a dict is
`dict.get`, yielding `None` when missing (`DotDict.__getattr__`), and raises
`AttributeError` on any other value; subscripting a dict with a missing key
raises `KeyError`, a list with an out-of-range index raises `IndexError`,
and any other combination raises `TypeError`. -/
def evalPyExpr (locals : List (Str × PyVal)) : PyExpr → Except PyErr PyVal
  | .name x =>
    match dictGet locals x with
    | some v => .ok v
    | none => .error .nameErr
  | .attr e f => do
    let v ← evalPyExpr locals e
    match v with
    | .dict m =>
      match dictGet m f with
      | some w => .ok w
      | none => .ok .none
    | _ => .error .attrErr
  | .index e lit => do
    let v ← evalPyExpr locals e
    match v, lit with
    | .dict m, .str k =>
      match dictGet m k with
      | some w => .ok w
      | none => .error .keyErr
    | .dict _, .int _ => .error .keyErr
    | .list xs, .int i => pyListIndex xs i
    | .list _, .str _ => .error .typeErr
    | .str s, .int i => pyStrIndex s i
    | .str _, .str _ => .error .typeErr
    | _, _ => .error .typeErr

/-- Identifier-start characters of the expression grammar. -/
def isIdentStart (c : Char) : Bool := c.isAlpha ∨ c = '_'

/-- Identifier-continuation characters. -/
def isIdentChar (c : Char) : Bool := c.isAlphanum ∨ c = '_'

/-- Longest identifier prefix of `s`, with the rest. -/
def takeIdent (s : Str) : Str × Str :=
  (s.takeWhile isIdentChar, s.dropWhile isIdentChar)

/-- Parses a decimal natural literal. -/
def digitsToNat (ds : Str) : Nat :=
  ds.foldl (fun acc c => acc * 10 + (c.toNat - 48)) 0

/-- Trailer loop of the expression grammar: `.ident`, `[int]`, or
`[quoted-string]` repeatedly; the fuel is the length of the remaining
input, so it never runs out on well-formed input. -/
def parseTrail : Nat → PyExpr → Str → Option PyExpr
  | _, e, [] => some e
  | 0, _, _ :: _ => Option.none
  | fuel + 1, e, c :: rest =>
    if c = '.' then
      let (id, rest2) := takeIdent rest
      if id = [] ∨ ¬ isIdentStart (id.getD 0 ' ') then Option.none
      else parseTrail fuel (.attr e id) rest2
    else if c = '[' then
      match rest with
      | [] => Option.none
      | d :: rest2 =>
        if d = aposC ∨ d = '"' then
          let key := rest2.takeWhile (· ≠ d)
          match rest2.dropWhile (· ≠ d) with
          | [] => Option.none
          | _ :: rest3 =>
            match rest3 with
            | ']' :: rest4 => parseTrail fuel (.index e (.str key)) rest4
            | _ => Option.none
        else
          let (neg, ds0) := if d = '-' then (true, rest2) else (false, d :: rest2)
          let digits := ds0.takeWhile Char.isDigit
          if digits = [] then Option.none
          else
            match ds0.dropWhile Char.isDigit with
            | ']' :: rest4 =>
              let n : Int := digitsToNat digits
              parseTrail fuel (.index e (.int (if neg then -n else n))) rest4
            | _ => Option.none
    else Option.none

/-- Parser for the restricted expression fragment (an identifier followed by
dotted/indexed trailers, surrounding whitespace allowed); anything outside
the fragment is treated as the `SyntaxError` case of `eval`. -/
def parsePyExpr (s : Str) : Option PyExpr :=
  let t := pyStrip s
  let (id, rest) := takeIdent t
  if id = [] ∨ ¬ isIdentStart (id.getD 0 ' ') then Option.none
  else parseTrail rest.length (.name id) rest

/-- The curly-quote normalization at the head of `resolve_param_value`. -/
def replaceQuotes (p : Str) : Str :=
  let p := replaceAll [Char.ofNat 8216] [aposC] p
  let p := replaceAll [Char.ofNat 8217] [aposC] p
  let p := replaceAll [Char.ofNat 8220] ['"'] p
  let p := replaceAll [Char.ofNat 8221] ['"'] p
  p

/-- `resolve_param_value` (`catslap/base/utils.py`): empty parameter resolves
to `None`; otherwise `row` is injected into the (returned, mutated) value
map when given and the map is nonempty; then the expression is evaluated,
with `AttributeError`, `NameError` and `TypeError` caught to `None` and
every other exception — `KeyError`, `IndexError`, `SyntaxError` —
propagating to the caller.  (`DotDict.create` only rewraps nested dicts and
is the identity on this model.) -/
def resolveParamValue (valueMap : List (Str × PyVal)) (row : Option Int)
    (param : Str) : List (Str × PyVal) × Except PyErr PyVal :=
  if param = [] then (valueMap, .ok .none)
  else
    let valueMap :=
      match row with
      | some r => if valueMap.isEmpty then valueMap else dictSet valueMap (strL "row") (.int r)
      | Option.none => valueMap
    let param := replaceQuotes param
    match parsePyExpr param with
    | Option.none => (valueMap, .error .syntaxErr)
    | some e =>
      match evalPyExpr valueMap e with
      | .ok v => (valueMap, .ok v)
      | .error .attrErr => (valueMap, .ok .none)
      | .error .nameErr => (valueMap, .ok .none)
      | .error .typeErr => (valueMap, .ok .none)
      | .error err => (valueMap, .error err)

/-- C5 counterexample input: the expression `m["x"]` (with single quotes in
the source template), over the scope `\x7bm: \x7b\x7d\x7d`. -/
def c5Param : Str := strL "m[" ++ [aposC] ++ strL "x" ++ [aposC] ++ strL "]"

/-- C5 counterexample: a *missing key* accessed through subscripting raises
`KeyError`, which `resolve_param_value` does not catch — the resolver
propagates the exception instead of returning the unresolved marker, so a
missing-key failure can abort processing. -/
theorem claimC5_counterexample :
    (resolveParamValue [(strL "m", PyVal.dict [])] Option.none c5Param).2
      = .error PyErr.keyErr := rfl

/-- C5 (amended): failures surfacing as `AttributeError`, `NameError` or
`TypeError` — dotted access on a missing key, a missing top-level name, a
type mismatch, a non-indexable access — make the resolver return the
unresolved marker without raising; but `KeyError`/`IndexError` from
subscripting (missing bracketed key, out-of-range index) propagate. -/
theorem claimC5 (m : List (Str × PyVal)) (p : Str) (e : PyExpr) (err : PyErr)
    (hp : p ≠ [])
    (hparse : parsePyExpr (replaceQuotes p) = some e)
    (heval : evalPyExpr m e = .error err)
    (hcaught : err = .attrErr ∨ err = .nameErr ∨ err = .typeErr) :
    resolveParamValue m Option.none p = (m, .ok PyVal.none) := by
  unfold resolveParamValue
  rw [if_neg hp]
  simp only [hparse, heval]
  rcases hcaught with h | h | h <;> subst h <;> rfl

/-- C5 witness: the caught-failure statement applied at the dotted expression
`missing.key` over the empty scope (a `NameError`). -/
theorem claimC5_witness :
    strL "missing.key" ≠ [] ∧
      parsePyExpr (replaceQuotes (strL "missing.key"))
        = some (PyExpr.attr (PyExpr.name (strL "missing")) (strL "key")) ∧
      evalPyExpr [] (PyExpr.attr (PyExpr.name (strL "missing")) (strL "key"))
        = .error PyErr.nameErr ∧
      resolveParamValue [] Option.none (strL "missing.key") = ([], .ok PyVal.none) :=
  ⟨by decide, rfl, rfl,
    claimC5 [] (strL "missing.key") (PyExpr.attr (PyExpr.name (strL "missing")) (strL "key"))
      PyErr.nameErr (by decide) rfl rfl (Or.inr (Or.inl rfl))⟩

/-! ## The base document (`catslap/base/document.py`) -/

/-- Values held by the style map: scalar style names, or lists for the
position-indexed families (`heading`, `list_bullet`, `list_number`). -/
inductive StyleVal where
  | scalar (s : Str)
  | list (xs : List Str)

/-- `Styles.__only_ascii`: keeps letters, digits, `-`, `_` and `,` only. -/
def onlyAscii (v : Str) : Str :=
  v.filter (fun c =>
    ('a' ≤ c ∧ c ≤ 'z') ∨ ('A' ≤ c ∧ c ≤ 'Z') ∨ ('0' ≤ c ∧ c ≤ '9') ∨
      c = '-' ∨ c = '_' ∨ c = ',')

/-- Splitting on a separator character (Python `str.split(sep)`). -/
def splitOnChar (sep : Char) (s : Str) : List Str :=
  match s with
  | [] => [[]]
  | c :: rest =>
    let tail := splitOnChar sep rest
    if c = sep then [] :: tail
    else
      match tail with
      | [] => [[c]]
      | t :: ts => (c :: t) :: ts

/-- `text_util.split_no_empty`: split, drop the (raw) empty items, strip the
rest. -/
def splitNoEmpty (s : Str) (sep : Char) : List Str :=
  ((splitOnChar sep s).filter (· ≠ [])).map pyStrip

/-- `Styles.__get_style_list_autonum`'s while loop: grows the list to six
entries by renumbering the last entry; Python indexes `curlist[idx-1]`,
which is an `IndexError` when the list starts empty. -/
def styleAutonumGo : Nat → List Str → Except PyErr (List Str)
  | idx, curlist =>
    if _h : idx < 6 then
      match curlist.getLast? with
      | Option.none => .error .idxErr
      | some value =>
        let value := if (strL (toString idx)).isSuffixOf value then value.dropLast else value
        let value := value ++ strL (toString (idx + 1))
        styleAutonumGo (idx + 1) (curlist ++ [value])
    else .ok curlist
termination_by idx => 6 - idx

/-- `Styles.__get_style_list_autonum`. -/
def styleListAutonum (stylevalue : Str) : Except PyErr (List Str) :=
  let curlist := splitNoEmpty stylevalue ','
  styleAutonumGo curlist.length curlist

/-- The three list-valued style families (`Styles.CFG_LIST_STYLES`). -/
def cfgListStyles : List Str := [strL "heading", strL "list_bullet", strL "list_number"]

/-- `Styles.setStyle`: strips a `style_` prefix, sanitizes the value, and
stores a list (via autonum) or a scalar. -/
def setStyle (styleMap : List (Str × StyleVal)) (name value : Str) :
    Except PyErr (List (Str × StyleVal)) :=
  let name := if (strL "style_").isPrefixOf name then name.drop 6 else name
  let value := onlyAscii value
  if cfgListStyles.contains name then do
    let lst ← styleListAutonum value
    .ok (dictSet styleMap name (.list lst))
  else
    .ok (dictSet styleMap name (.scalar value))

/-- `text_util.remove_quotes`: strips one matching pair of surrounding
quotes. -/
def removeQuotes (t : Str) : Str :=
  if t = [] then []
  else
    let t := pyStrip t
    let pairs : List (Char × Char) :=
      [('"', '"'), (aposC, aposC), (backtickC, backtickC),
        (Char.ofNat 180, Char.ofNat 180),
        (Char.ofNat 8220, Char.ofNat 8221), (Char.ofNat 8216, Char.ofNat 8217)]
    if pairs.any (fun p => t.head? = some p.1 ∧ t.getLast? = some p.2) ∧ t ≠ [] then
      (t.drop 1).dropLast
    else t

/-- The instance state of `Document`/`WordDocument` that the treated claims
touch: the default-parameter scope, the abstract user value resolver, the
two parameter ledgers and the style map. -/
structure DocState where
  defaultParams : List (Str × PyVal)
  valueResolver : Option Int → Str → Except PyErr PyVal
  okList : List Str
  errList : List Str
  styleMap : List (Str × StyleVal)

/-- `Document.resolve_value`: first the default resolver (over the mutable
`default_params` scope), then the user resolver; a `None` outcome appends
the parameter once to the failed ledger and substitutes `''`; otherwise the
parameter goes once into the resolved ledger. -/
def resolveValue (row : Option Int) (param : Str) (s : DocState) :
    Except PyErr (PyVal × DocState) :=
  match resolveParamValue s.defaultParams row param with
  | (_, .error e) => .error e
  | (dp, .ok v0) =>
    let s1 := { s with defaultParams := dp }
    match (match v0 with | .none => s1.valueResolver row param | v => .ok v) with
    | .error e => .error e
    | .ok .none =>
      .ok (.str [], { s1 with errList :=
        if s1.errList.contains param then s1.errList else s1.errList ++ [param] })
    | .ok v =>
      .ok (v, { s1 with okList :=
        if s1.okList.contains param then s1.okList else s1.okList ++ [param] })

/-- The opening placeholder marker. -/
def openB : Str := strL "\x7b\x7b"

/-- The closing placeholder marker. -/
def closeB : Str := strL "\x7d\x7d"

/-- The while loop of `Document.resolve_text`: `idx1` points at the current
`&#x7b;&#x7b;` occurrence; on a missing closing marker the loop breaks and — as in
the source — the trailing text after the last complete placeholder is never
appended to `rtext`. -/
def resolveTextLoop (row : Option Int) (value : Str) :
    Nat → Nat → Nat → Str → DocState → Except PyErr (Str × DocState)
  | 0, _, _, rtext, s => .ok (rtext, s)
  | fuel + 1, idx1, idx0, rtext, s =>
    match findFrom value closeB idx1 with
    | Option.none => .ok (rtext, s)
    | some idx2 =>
      if idx2 ≤ idx1 then .ok (rtext, s)
      else
        match resolveValue row (slice value (idx1 + 2) idx2) s with
        | .error e => .error e
        | .ok (rv, s2) =>
          let rtext2 := rtext ++ slice value idx0 idx1 ++ pyStr rv
          match findFrom value openB (idx2 + 2) with
          | Option.none => .ok (rtext2, s2)
          | some idx1n => resolveTextLoop row value fuel idx1n (idx2 + 2) rtext2 s2

/-- `Document.resolve_text`: returns the input unchanged when it holds no
opening marker, else runs the scan loop. -/
def resolveText (row : Option Int) (value : Str) (s : DocState) :
    Except PyErr (Str × DocState) :=
  match findFrom value openB 0 with
  | Option.none => .ok (value, s)
  | some idx1 => resolveTextLoop row value (value.length + 1) idx1 0 [] s

/-! ## Properties of the substring scan `findFrom` -/

theorem findFromAux_some {s pat : Str} :
    ∀ (fuel i j : Nat), findFromAux s pat i fuel = some j →
      i ≤ j ∧ pat.isPrefixOf (s.drop j) = true ∧
        ∀ k, i ≤ k → k < j → pat.isPrefixOf (s.drop k) = false := by
  intro fuel
  induction fuel with
  | zero => intro i j h; simp [findFromAux] at h
  | succ fuel ih =>
    intro i j h
    by_cases hp : pat.isPrefixOf (s.drop i) = true
    · simp [findFromAux, hp] at h
      subst h
      exact ⟨Nat.le_refl _, hp, fun k hik hki => absurd hik (by omega)⟩
    · simp only [findFromAux, hp, if_false, Bool.not_eq_true] at h
      rcases ih (i + 1) j h with ⟨h1, h2, h3⟩
      refine ⟨by omega, h2, fun k hik hkj => ?_⟩
      by_cases hki : k = i
      · subst hki
        simp only [Bool.not_eq_true] at hp
        exact hp
      · exact h3 k (by omega) hkj

theorem findFromAux_complete {s pat : Str} :
    ∀ (fuel i k : Nat), i ≤ k → k < i + fuel → pat.isPrefixOf (s.drop k) = true →
      ∃ j, findFromAux s pat i fuel = some j ∧ j ≤ k := by
  intro fuel
  induction fuel with
  | zero => intro i k h1 h2 _; omega
  | succ fuel ih =>
    intro i k h1 h2 hk
    by_cases hp : pat.isPrefixOf (s.drop i) = true
    · exact ⟨i, by simp [findFromAux, hp], h1⟩
    · have hki : i ≠ k := fun h => hp (h ▸ hk)
      rcases ih (i + 1) k (by omega) (by omega) hk with ⟨j, hj, hjk⟩
      exact ⟨j, by simp [findFromAux, hp, hj], hjk⟩

theorem isPrefixOf_nil_false {pat : Str} (h : pat ≠ []) :
    pat.isPrefixOf ([] : Str) = false := by
  cases pat with
  | nil => exact absurd rfl h
  | cons c r => rfl

theorem prefixOf_drop_bound {s pat : Str} {j : Nat} (hpat : pat ≠ [])
    (h : pat.isPrefixOf (s.drop j) = true) : j + pat.length ≤ s.length := by
  have hj : j ≤ s.length := by
    by_contra hgt
    have : s.drop j = [] := List.drop_eq_nil_of_le (by omega)
    rw [this, isPrefixOf_nil_false hpat] at h
    exact absurd h (by simp)
  have hle : pat.length ≤ (s.drop j).length :=
    (List.isPrefixOf_iff_prefix.mp h).length_le
  simp only [List.length_drop] at hle
  omega

theorem findFrom_some {s pat : Str} {i j : Nat} (h : findFrom s pat i = some j) :
    i ≤ j ∧ pat.isPrefixOf (s.drop j) = true ∧
      ∀ k, i ≤ k → k < j → pat.isPrefixOf (s.drop k) = false :=
  findFromAux_some _ i j h

theorem findFrom_complete {s pat : Str} {i k : Nat} (hpat : pat ≠ [])
    (hik : i ≤ k) (hk : pat.isPrefixOf (s.drop k) = true) :
    ∃ j, findFrom s pat i = some j ∧ j ≤ k := by
  have hb := prefixOf_drop_bound hpat hk
  have h0 : 0 < pat.length := List.length_pos.mpr hpat
  exact findFromAux_complete _ i k hik (by omega) hk

theorem findFrom_none {s pat : Str} {i : Nat} (hpat : pat ≠ [])
    (h : findFrom s pat i = none) :
    ∀ k, i ≤ k → pat.isPrefixOf (s.drop k) = false := by
  intro k hik
  by_contra hk
  simp only [Bool.not_eq_false] at hk
  rcases findFrom_complete hpat hik hk with ⟨j, hj, _⟩
  rw [h] at hj
  exact Option.noConfusion hj

theorem isPrefixOf_append_of_le {pat v w : Str} (hlen : pat.length ≤ v.length) :
    pat.isPrefixOf (v ++ w) = pat.isPrefixOf v := by
  by_cases h : pat.isPrefixOf v = true
  · rw [h]
    exact List.isPrefixOf_iff_prefix.mpr
      ((List.isPrefixOf_iff_prefix.mp h).trans (List.prefix_append v w))
  · simp only [Bool.not_eq_true] at h
    rw [h]
    by_contra hvw
    simp only [Bool.not_eq_false] at hvw
    have hpre := List.isPrefixOf_iff_prefix.mp hvw
    have htake := List.prefix_iff_eq_take.mp hpre
    rw [List.take_append_eq_append_take,
      Nat.sub_eq_zero_of_le hlen, List.take_zero, List.append_nil] at htake
    have : pat.isPrefixOf v = true :=
      List.isPrefixOf_iff_prefix.mpr (htake ▸ List.take_prefix _ v)
    rw [h] at this
    exact absurd this (by simp)

theorem drop_append_left {u t : Str} {j : Nat} (hj : j ≤ u.length) :
    (u ++ t).drop j = u.drop j ++ t := by
  rw [List.drop_append_eq_append_drop, Nat.sub_eq_zero_of_le hj, List.drop_zero]

theorem prefixOf_drop_append {u t pat : Str} {j : Nat}
    (hfit : j + pat.length ≤ u.length) :
    pat.isPrefixOf ((u ++ t).drop j) = pat.isPrefixOf (u.drop j) := by
  rw [drop_append_left (by omega)]
  exact isPrefixOf_append_of_le (by simp [List.length_drop]; omega)

theorem findFrom_append_some {u t pat : Str} {i j : Nat} (hpat : pat ≠ [])
    (h : findFrom u pat i = some j) : findFrom (u ++ t) pat i = some j := by
  rcases findFrom_some h with ⟨hij, hpre, hmin⟩
  have hfit : j + pat.length ≤ u.length := prefixOf_drop_bound hpat hpre
  have hpre2 : pat.isPrefixOf ((u ++ t).drop j) = true := by
    rw [prefixOf_drop_append hfit]; exact hpre
  rcases findFrom_complete hpat hij hpre2 with ⟨j2, hj2, hj2le⟩
  rcases findFrom_some hj2 with ⟨hij2, hpre3, _⟩
  rcases Nat.lt_or_ge j2 j with hlt | hge
  · have hfit2 : j2 + pat.length ≤ u.length := by omega
    rw [prefixOf_drop_append hfit2] at hpre3
    rw [hmin j2 hij2 hlt] at hpre3
    exact absurd hpre3 (by simp)
  · have : j2 = j := by omega
    rw [this] at hj2
    exact hj2

theorem slice_append_left {u t : Str} {a b : Nat} (hb : b ≤ u.length) :
    slice (u ++ t) a b = slice u a b := by
  unfold slice
  rw [List.take_append_eq_append_take, Nat.sub_eq_zero_of_le hb,
    List.take_zero, List.append_nil]

/-! ## C10: the trailing text after the last placeholder is dropped -/

theorem findFrom_start_past {s pat : Str} {i : Nat} (h : s.length + 1 ≤ i) :
    findFrom s pat i = Option.none := by
  unfold findFrom
  rw [Nat.sub_eq_zero_of_le h]
  rfl

theorem resolveTextLoop_fuelirr (row : Option Int) (value : Str) :
    ∀ (fuel fuel2 idx1 idx0 : Nat) (rtext : Str) (s : DocState),
      value.length + 1 ≤ fuel + idx1 → value.length + 1 ≤ fuel2 + idx1 →
      resolveTextLoop row value fuel idx1 idx0 rtext s
        = resolveTextLoop row value fuel2 idx1 idx0 rtext s := by
  intro fuel
  induction fuel with
  | zero =>
    intro fuel2 idx1 idx0 rtext s h1 _
    have hnone : findFrom value closeB idx1 = Option.none :=
      findFrom_start_past (by omega)
    cases fuel2 with
    | zero => rfl
    | succ fuel2 => simp [resolveTextLoop, hnone]
  | succ fuel ih =>
    intro fuel2 idx1 idx0 rtext s h1 h2
    cases fuel2 with
    | zero =>
      have hnone : findFrom value closeB idx1 = Option.none :=
        findFrom_start_past (by omega)
      simp [resolveTextLoop, hnone]
    | succ fuel2 =>
      simp only [resolveTextLoop]
      cases hc : findFrom value closeB idx1 with
      | none => rfl
      | some idx2 =>
        simp only []
        by_cases hle : idx2 ≤ idx1
        · simp [hle]
        · simp only [if_neg hle]
          cases hrv : resolveValue row (slice value (idx1 + 2) idx2) s with
          | error e => rfl
          | ok p =>
            cases p with
            | mk rv s2 =>
              simp only []
              cases ho : findFrom value openB (idx2 + 2) with
              | none => rfl
              | some idx1n =>
                rcases findFrom_some ho with ⟨hge, hpre, _⟩
                exact ih fuel2 idx1n (idx2 + 2) _ s2 (by omega) (by omega)

theorem openB_ne : openB ≠ ([] : Str) := by decide

theorem closeB_ne : closeB ≠ ([] : Str) := by decide

theorem openB_len : openB.length = 2 := rfl

theorem closeB_len : closeB.length = 2 := rfl

theorem resolveTextLoop_agree (row : Option Int) (u t : Str)
    (hlen : 2 ≤ u.length)
    (hsuf : closeB.isPrefixOf (u.drop (u.length - 2)) = true)
    (hnoph : ∀ k, u.length ≤ k + 1 →
      openB.isPrefixOf ((u ++ t).drop k) = true →
      findFrom (u ++ t) closeB k = Option.none) :
    ∀ (fuel idx1 idx0 : Nat) (rtext : Str) (s : DocState),
      openB.isPrefixOf (u.drop idx1) = true →
      resolveTextLoop row (u ++ t) fuel idx1 idx0 rtext s
        = resolveTextLoop row u fuel idx1 idx0 rtext s := by
  intro fuel
  induction fuel with
  | zero => intro idx1 idx0 rtext s _; rfl
  | succ fuel ih =>
    intro idx1 idx0 rtext s hidx1
    have hfit : idx1 + 2 ≤ u.length := by
      have := prefixOf_drop_bound openB_ne hidx1
      rw [openB_len] at this
      exact this
    -- the close marker is found inside `u` on both sides
    have hsufpos : idx1 ≤ u.length - 2 := by omega
    obtain ⟨idx2, hcu, hidx2le⟩ :=
      @findFrom_complete u closeB _ _ closeB_ne hsufpos hsuf
    have hcut : findFrom (u ++ t) closeB idx1 = some idx2 :=
      findFrom_append_some closeB_ne hcu
    rcases findFrom_some hcu with ⟨hge2, hpre2, _⟩
    have hfit2 : idx2 + 2 ≤ u.length := by
      have := prefixOf_drop_bound closeB_ne hpre2
      rw [closeB_len] at this
      exact this
    simp only [resolveTextLoop, hcu, hcut]
    by_cases hle : idx2 ≤ idx1
    · simp [hle]
    · simp only [if_neg hle]
      rw [slice_append_left (by omega), slice_append_left (by omega)]
      cases hrv : resolveValue row (slice u (idx1 + 2) idx2) s with
      | error e => rfl
      | ok p =>
        cases p with
        | mk rv s2 =>
          simp only []
          cases ho : findFrom u openB (idx2 + 2) with
          | some idx1n =>
            have hot : findFrom (u ++ t) openB (idx2 + 2) = some idx1n :=
              findFrom_append_some openB_ne ho
            rw [hot]
            rcases findFrom_some ho with ⟨_, hpn, _⟩
            exact ih idx1n (idx2 + 2) _ s2 hpn
          | none =>
            cases hot : findFrom (u ++ t) openB (idx2 + 2) with
            | none => rfl
            | some j =>
              rcases findFrom_some hot with ⟨hgej, hprej, _⟩
              have hj : u.length ≤ j + 1 := by
                by_contra hlt
                push_neg at hlt
                have hfitj : j + 2 ≤ u.length := by omega
                have : openB.isPrefixOf (u.drop j) = true := by
                  have heq := @prefixOf_drop_append u t openB j
                    (by rw [openB_len]; omega)
                  rw [heq] at hprej
                  exact hprej
                obtain ⟨j2, hj2, _⟩ := @findFrom_complete u openB _ _ openB_ne hgej this
                rw [ho] at hj2
                exact Option.noConfusion hj2
              have hnone := hnoph j hj hprej
              cases fuel with
              | zero => rfl
              | succ fuel2 => simp [resolveTextLoop, hnone]

/-- C10: `Document.resolve_text` silently drops the trailing literal text
after the last complete placeholder.  First conjunct: when `u` ends at the
closing marker of its final placeholder and contains at least one opening
marker, and no further complete placeholder begins at or beyond the end of
`u`, any trailing text `t` is simply dropped — the result on `u ++ t`
coincides with the result on `u` alone.  Second conjunct: inputs with no
opening marker at all are returned unchanged. -/
theorem claimC10 :
    (∀ (row : Option Int) (s : DocState) (u t : Str) (i : Nat),
      2 ≤ u.length →
      closeB.isPrefixOf (u.drop (u.length - 2)) = true →
      (∀ k, u.length ≤ k + 1 →
        openB.isPrefixOf ((u ++ t).drop k) = true →
        findFrom (u ++ t) closeB k = Option.none) →
      findFrom u openB 0 = some i →
      resolveText row (u ++ t) s = resolveText row u s) ∧
    (∀ (row : Option Int) (s : DocState) (v : Str),
      findFrom v openB 0 = Option.none → resolveText row v s = .ok (v, s)) := by
  constructor
  · intro row s u t i hlen hsuf hnoph hopen
    have hopent : findFrom (u ++ t) openB 0 = some i :=
      findFrom_append_some openB_ne hopen
    rcases findFrom_some hopen with ⟨_, hprei, _⟩
    unfold resolveText
    simp only [hopen, hopent]
    rw [resolveTextLoop_agree row u t hlen hsuf hnoph ((u ++ t).length + 1) i 0 [] s hprei]
    exact resolveTextLoop_fuelirr row u ((u ++ t).length + 1) (u.length + 1) i 0 [] s
      (by simp only [List.length_append]; omega) (by omega)
  · intro row s v hnone
    unfold resolveText
    rw [hnone]

/-- A concrete document state whose user resolver always fails. -/
def testState : DocState :=
  { defaultParams := [], valueResolver := fun _ _ => .ok .none,
    okList := [], errList := [], styleMap := [] }

/-- C10 witness: `\x7b\x7ba\x7d\x7dx` behaves as `\x7b\x7ba\x7d\x7d` (the
trailing `x` is dropped), and a placeholder-free input comes back as is. -/
theorem claimC10_witness :
    resolveText Option.none (strL "\x7b\x7ba\x7d\x7d" ++ strL "x") testState
      = resolveText Option.none (strL "\x7b\x7ba\x7d\x7d") testState ∧
    resolveText Option.none (strL "plain") testState
      = .ok (strL "plain", testState) := by
  constructor
  · refine claimC10.1 Option.none testState (strL "\x7b\x7ba\x7d\x7d") (strL "x") 0
      (by decide) (by decide) ?_ rfl
    intro k hk hpre
    have hb := prefixOf_drop_bound openB_ne hpre
    rw [openB_len] at hb
    have hklen : (strL "\x7b\x7ba\x7d\x7d" ++ strL "x").length = 6 := rfl
    rw [hklen] at hb
    have hk5 : (strL "\x7b\x7ba\x7d\x7d").length = 5 := rfl
    rw [hk5] at hk
    have hk4 : k = 4 := by omega
    subst hk4
    exact absurd hpre (by decide)
  · exact claimC10.2 Option.none testState (strL "plain") rfl

/-! ## More `findFrom` facts -/

theorem getElemQ_eq_drop_headQ (v : Str) (k : Nat) :
    v.get? k = (v.drop k).head? := by
  induction v generalizing k with
  | nil => simp
  | cons c rest ih =>
    cases k with
    | zero => simp
    | succ k => simp only [List.get?, List.drop]; exact ih k

theorem findFrom_eq_none {s pat : Str} {i : Nat}
    (h : ∀ k, i ≤ k → pat.isPrefixOf (s.drop k) = false) :
    findFrom s pat i = Option.none := by
  cases hf : findFrom s pat i with
  | none => rfl
  | some j =>
    rcases findFrom_some hf with ⟨hij, hpre, _⟩
    rw [h j hij] at hpre
    exact absurd hpre (by simp)

theorem findFrom_exact {s pat : Str} {i j : Nat} (hpat : pat ≠ []) (hij : i ≤ j)
    (hpre : pat.isPrefixOf (s.drop j) = true)
    (hmin : ∀ k, i ≤ k → k < j → pat.isPrefixOf (s.drop k) = false) :
    findFrom s pat i = some j := by
  obtain ⟨j2, hj2, hle⟩ := findFrom_complete hpat hij hpre
  rcases findFrom_some hj2 with ⟨hij2, hpre2, _⟩
  rcases Nat.lt_or_ge j2 j with hlt | hge
  · rw [hmin j2 hij2 hlt] at hpre2
    exact absurd hpre2 (by simp)
  · have heq : j2 = j := by omega
    rw [← heq]
    exact hj2

theorem closeB_prefix_char {v : Str} {k : Nat}
    (h : closeB.isPrefixOf (v.drop k) = true) :
    v.get? k = some (Char.ofNat 125) := by
  rw [getElemQ_eq_drop_headQ]
  cases hd : v.drop k with
  | nil =>
    rw [hd, isPrefixOf_nil_false closeB_ne] at h
    exact absurd h (by simp)
  | cons c rest =>
    rw [hd] at h
    have : closeB = [Char.ofNat 125, Char.ofNat 125] := by decide
    rw [this] at h
    cases rest with
    | nil => simp [List.isPrefixOf] at h
    | cons c2 rest2 =>
      simp only [List.isPrefixOf, List.isPrefixOf_nil_left, Bool.and_true,
        Bool.and_eq_true, beq_iff_eq] at h
      simp [h.1.symm]

/-! ## The Word directive engine (`catslap/docx/document.py`) -/

/-- Modelled from the spec: the `word_tags` module (`WT`) with the OOXML
tag-name constants is not under `src/`, only its callers are; the standard
OOXML names are used, consistent with the literal names appearing in the
sources (`w:rPr`/`w:pPr` in the ignorable lists, `w:numPr`, `w:drawing`).
This is `WT.TAG_P`. -/
def wtP : Str := strL "w:p"

/-- `WT.TAG_R` (see `wtP` for provenance). -/
def wtR : Str := strL "w:r"

/-- `WT.TAG_T` (see `wtP` for provenance). -/
def wtT : Str := strL "w:t"

/-- `WT.TAG_RPR` (see `wtP` for provenance). -/
def wtRPr : Str := strL "w:rPr"

/-- `WT.TAG_PPR` (see `wtP` for provenance). -/
def wtPPr : Str := strL "w:pPr"

/-- `WT.TAG_TBL` (see `wtP` for provenance). -/
def wtTbl : Str := strL "w:tbl"

/-- `WT.TAG_TR` (see `wtP` for provenance). -/
def wtTr : Str := strL "w:tr"

/-- `WT.TAG_TABLE_CELL` (see `wtP` for provenance). -/
def wtTc : Str := strL "w:tc"

/-- `IGNORABLE_TAGS`: deleted unconditionally by the collapse pass. -/
def ignorableTags : List Str :=
  [strL "w:lastRenderedPageBreak", strL "w:proofErr", strL "w:noProof",
    strL "w:lang", strL "w:bookmarkStart", strL "w:bookmarkEnd"]

/-- `IGNORABLE_EMPTY_TAGS`: deleted when they have no children. -/
def ignorableEmptyTags : List Str := [strL "w:rPr", strL "w:pPr"]

/-- `XmlTag.get_tag(name, mandatory=False)`: the first child tag with the
given name, skipping text nodes. -/
def firstTag (cs : List XmlNode) (name : Str) : Option XmlNode :=
  match cs with
  | [] => Option.none
  | .text _ :: rest => firstTag rest name
  | .tag n a sub :: rest =>
    if n = name then some (.tag n a sub) else firstTag rest name

/-- `XmlTag.get_tags(name)`: all child tags with the given name. -/
def getTags (cs : List XmlNode) (name : Str) : List XmlNode :=
  cs.filter (fun e => match e with | .tag n _ _ => n = name | .text _ => false)

/-- `XmlTag.get_text` via `get_text_node(mandatory=True)`: empty children
yield an empty string; a leading non-text child raises
`XmlParserException`. -/
def getText (e : XmlNode) : Except PyErr Str :=
  match e.childrenOf with
  | [] => .ok []
  | .text c :: _ => .ok c
  | .tag _ _ _ :: _ => .error .xmlErr

/-- The directive opening marker. -/
def openD : Str := strL "\x7b%"

/-- The directive closing marker. -/
def closeD : Str := strL "%\x7d"

mutual

/-- `WordDocument.__get_directive`: on a non-`w:t` tag, the first directive
found among the children (text children give none); on a `w:t` tag, the
directive keyword and argument parsed out of its text between the
directive markers. -/
def getDirective : XmlNode → Except PyErr (Option (Str × Str))
  | .text _ => .ok Option.none
  | .tag n a cs =>
    if n ≠ wtT then getDirectiveList cs
    else
      match getText (.tag n a cs) with
      | .error er => .error er
      | .ok text =>
        match findFrom text openD 0 with
        | Option.none => .ok Option.none
        | some idxf =>
          let idx := idxf + 2
          match findFrom text closeD idx with
          | Option.none => .ok Option.none
          | some idx2 =>
            let directive := pyStrip (slice text idx idx2)
            match findFrom directive (strL " ") 0 with
            | some idx1 =>
              .ok (some (pyStrip (slice directive 0 idx1),
                pyStrip (sliceFrom directive (idx1 + 1))))
            | Option.none => .ok (some (directive, []))

/-- The `for tag2 in tag.elements` search of `__get_directive`. -/
def getDirectiveList : List XmlNode → Except PyErr (Option (Str × Str))
  | [] => .ok Option.none
  | e :: rest =>
    match getDirective e with
    | .error er => .error er
    | .ok (some kv) => .ok (some kv)
    | .ok Option.none => getDirectiveList rest

end

/-- The `ProcessStatus` state machine: the two independent depth counters,
the else flag, and the directive family being searched. -/
structure ProcessStatus where
  nifs : Int
  nfors : Int
  elseMode : Bool
  search : Option Str
deriving DecidableEq

/-- `ProcessStatus.process_directive_keyword`: adjusts the depth counters and
reports whether the searched block just closed. -/
def processDirectiveKeyword (st : ProcessStatus) (keyword : Str) :
    ProcessStatus × Bool :=
  let st :=
    if keyword = strL "if" then
      let st :=
        if st.search = Option.none ∧ st.nifs = 0 then
          { st with search := some (strL "if") }
        else st
      { st with nifs := st.nifs + 1 }
    else if keyword = strL "endif" then { st with nifs := st.nifs - 1 }
    else if keyword = strL "else" then
      if st.nifs = 1 then { st with elseMode := true } else st
    else if keyword = strL "for" then
      let st :=
        if st.search = Option.none ∧ st.nfors = 0 then
          { st with search := some (strL "for") }
        else st
      { st with nfors := st.nfors + 1 }
    else if keyword = strL "endfor" then { st with nfors := st.nfors - 1 }
    else st
  let found :=
    (st.search = some (strL "if") ∧ st.nifs = 0) ∨
      (st.search = some (strL "for") ∧ st.nfors = 0)
  (st, decide found)

/-- `WordDocument.__process_directive_with_status`. -/
def processDirectiveWithStatus (e : XmlNode) (st : ProcessStatus) :
    Except PyErr (ProcessStatus × Bool) :=
  match getDirective e with
  | .error er => .error er
  | .ok (some (kw, _)) => .ok (processDirectiveKeyword st kw)
  | .ok Option.none => .ok (st, false)

/-- The while loop of `__get_blocks_until_endif` over the siblings after the
opening directive: text siblings are deleted; the closing directive is
deleted and ends the scan; other tags are kept (into `if_blocks` and the
tree) or deleted according to the tracked branch and the truth value.
Returns the kept span and the siblings after the closing directive. -/
def gbeLoop (isTrue : Bool) (st : ProcessStatus) :
    List XmlNode → Except PyErr (List XmlNode × List XmlNode)
  | [] => .ok ([], [])
  | .text _ :: rest => gbeLoop isTrue st rest
  | .tag n a cs :: rest =>
    match processDirectiveWithStatus (.tag n a cs) st with
    | .error er => .error er
    | .ok (st2, found) =>
      if found then .ok ([], rest)
      else if ¬ st2.elseMode then
        if isTrue then
          match gbeLoop isTrue st2 rest with
          | .error er => .error er
          | .ok (kept, tail) => .ok (.tag n a cs :: kept, tail)
        else gbeLoop isTrue st2 rest
      else
        if ¬ isTrue then
          match gbeLoop isTrue st2 rest with
          | .error er => .error er
          | .ok (kept, tail) => .ok (.tag n a cs :: kept, tail)
        else gbeLoop isTrue st2 rest

/-- `WordDocument.__get_blocks_until_endif` on the sibling span starting at
the opening `if` directive (which is fed through the status machine and
deleted). -/
def getBlocksUntilEndif (isTrue : Bool) (els : List XmlNode) :
    Except PyErr (List XmlNode × List XmlNode) :=
  match els with
  | [] => .ok ([], [])
  | opener :: rest =>
    let st : ProcessStatus :=
      { nifs := 0, nfors := 0, elseMode := false, search := some (strL "if") }
    match processDirectiveWithStatus opener st with
    | .error er => .error er
    | .ok (st2, _) => gbeLoop isTrue st2 rest

/-- The while loop of `__get_blocks_until_endfor`: body siblings are deep
cloned into the block list and removed from the tree. -/
def gbfLoop (st : ProcessStatus) :
    List XmlNode → Except PyErr (List XmlNode × List XmlNode)
  | [] => .ok ([], [])
  | .text _ :: rest => gbfLoop st rest
  | .tag n a cs :: rest =>
    match processDirectiveWithStatus (.tag n a cs) st with
    | .error er => .error er
    | .ok (st2, found) =>
      if found then .ok ([], rest)
      else
        match gbfLoop st2 rest with
        | .error er => .error er
        | .ok (blocks, tail) =>
          .ok (XmlNode.cloneDeep (.tag n a cs) :: blocks, tail)

/-- `WordDocument.__get_blocks_until_endfor`. -/
def getBlocksUntilEndfor (els : List XmlNode) :
    Except PyErr (List XmlNode × List XmlNode) :=
  match els with
  | [] => .ok ([], [])
  | opener :: rest =>
    let st : ProcessStatus :=
      { nifs := 0, nfors := 0, elseMode := false, search := some (strL "for") }
    match processDirectiveWithStatus opener st with
    | .error er => .error er
    | .ok (st2, _) => gbfLoop st2 rest

/-- `WordDocument.__get_for_values`: splits at the first ` in `; a missing
separator is the fatal `RuntimeError` of the source. -/
def getForValues (param : Str) : Except PyErr (Str × Str) :=
  match findFrom param (strL " in ") 0 with
  | Option.none => .error .runtimeErr
  | some idx => .ok (pyStrip (slice param 0 idx), pyStrip (sliceFrom param (idx + 4)))

/-- The truthiness cascade of the `if` evaluation (document.py lines
288–297): booleans as such, ints by non-zero, lists by non-emptiness, all
else by the string form being non-empty. -/
def pyTruthy : PyVal → Bool
  | .bool b => b
  | .int n => decide (n ≠ 0)
  | .list xs => decide (0 < xs.length)
  | v => decide (pyStr v ≠ [])

/-- Python iteration (`for varvalue in for_list`): lists yield elements,
strings their characters, dicts their keys; everything else raises
`TypeError`.  An unresolved expression became an empty string and yields no
iterations. -/
def pyIter : PyVal → Except PyErr (List PyVal)
  | .list xs => .ok xs
  | .str s => .ok (s.map (fun c => PyVal.str [c]))
  | .dict m => .ok (m.map (fun kv => PyVal.str kv.1))
  | _ => .error .typeErr

/-- `WordDocument.__process_style_directive` (no `=` means no effect). -/
def processStyleDirective (param : Str) (sm : List (Str × StyleVal)) :
    Except PyErr (List (Str × StyleVal)) :=
  match findFrom param (strL "=") 0 with
  | Option.none => .ok sm
  | some idx =>
    setStyle sm (pyStrip (slice param 0 idx))
      (removeQuotes (pyStrip (sliceFrom param (idx + 1))))

/-- `WordDocument.__is_paragraph_empty`, text check: all `w:t` texts blank. -/
def ipeTexts : List XmlNode → Except PyErr Bool
  | [] => .ok true
  | t :: rest =>
    match getText t with
    | .error er => .error er
    | .ok txt =>
      if pyStrip txt = [] then ipeTexts rest else .ok false

/-- `__is_paragraph_empty`, run loop: a run without `w:t` children makes the
paragraph non-empty; otherwise all texts must be blank. -/
def ipeRuns : List XmlNode → Except PyErr Bool
  | [] => .ok true
  | r :: rest =>
    let texts := getTags r.childrenOf wtT
    if texts.isEmpty then .ok false
    else
      match ipeTexts texts with
      | .error er => .error er
      | .ok true => ipeRuns rest
      | .ok false => .ok false

/-- `WordDocument.__is_paragraph_empty`: no runs means "not empty" (never
had text); otherwise every run must carry only blank `w:t` texts. -/
def isParagraphEmpty (e : XmlNode) : Except PyErr Bool :=
  let runs := getTags e.childrenOf wtR
  if runs.isEmpty then .ok false
  else ipeRuns runs

/-- The placeholder scan inside `__resolve_text_value` on a `w:t` text:
`text1` accumulates the resolved form, `text2` the form with the
placeholders cut out; unlike `resolve_text`, the caller appends the
trailing text after the final placeholder (returned as the final `idx0`). -/
def rtvScan (row : Option Int) (value : Str) :
    Nat → Nat → Nat → Str → Str → DocState →
      Except PyErr (Str × Str × Nat × DocState)
  | 0, _, idx0, text1, text2, s => .ok (text1, text2, idx0, s)
  | fuel + 1, idx1, idx0, text1, text2, s =>
    match findFrom value closeB idx1 with
    | Option.none => .ok (text1, text2, idx0, s)
    | some idx2 =>
      if idx2 ≤ idx1 then .ok (text1, text2, idx0, s)
      else
        let text1b := text1 ++ slice value idx0 idx1
        let text2b := text2 ++ slice value idx0 idx1
        match resolveValue row (slice value (idx1 + 2) idx2) s with
        | .error e => .error e
        | .ok (rv, s2) =>
          let text1c := text1b ++ pyStr rv
          match findFrom value openB (idx2 + 2) with
          | Option.none => .ok (text1c, text2b, idx2 + 2, s2)
          | some idx1n => rtvScan row value fuel idx1n (idx2 + 2) text1c text2b s2

/-- The `w:t` branch of `__resolve_text_value` (no recursion): scans the
leading text child for placeholders, stores the resolved text back, and
computes the three flags. -/
def rtvTextCase (row : Option Int) (n : Str) (a : List (Str × Option AttrV))
    (cs : List XmlNode) (s : DocState) :
    Except PyErr (XmlNode × Bool × Bool × Bool × DocState) :=
  match cs with
  | .tag n0 a0 cs0 :: rest0 => .ok (.tag n a (.tag n0 a0 cs0 :: rest0), false, false, false, s)
  | [] => .ok (.tag n a [], false, false, false, s)
  | .text value :: csrest =>
    match findFrom value openB 0 with
    | Option.none =>
      .ok (.tag n a (.text value :: csrest), !(pyStrip value).isEmpty, false, false, s)
    | some idx1 =>
      match rtvScan row value (value.length + 1) idx1 0 [] [] s with
      | .error er => .error er
      | .ok (text1, text2, idx0, s2) =>
        let text1 := text1 ++ sliceFrom value idx0
        let text2 := text2 ++ sliceFrom value idx0
        let sometext : Bool := decide (text1 ≠ text2)
        .ok (.tag n a (.text text1 :: csrest), sometext, true, sometext, s2)

mutual

/-- `WordDocument.__resolve_text_value`: resolves placeholders inside the
`w:t` texts below a tag, deleting `w:tr`/`w:tbl` children whose
substitutions all came out empty; returns the rewritten node, the three
bottom-up flags (had text, had substitution, had non-empty substitution)
and the threaded state. -/
def resolveTextValue : Option Int → XmlNode → DocState →
    Except PyErr (XmlNode × Bool × Bool × Bool × DocState)
  | _, .text c, s => .ok (.text c, false, false, false, s)
  | row, .tag n a cs, s =>
    if cs.isEmpty then .ok (.tag n a cs, false, false, false, s)
    else if n ≠ wtT then
      match rtvList row cs s with
      | .error er => .error er
      | .ok (cs2, st, sd, std, s2) => .ok (.tag n a cs2, st, sd, std, s2)
    else rtvTextCase row n a cs s

/-- The child loop of `__resolve_text_value` (index-based in the source):
text children are kept untouched; `w:tr`/`w:tbl` children with only-empty
substitutions are deleted — and, as in the source's `continue`, their flags
are not folded into the parent's. -/
def rtvList : Option Int → List XmlNode → DocState →
    Except PyErr (List XmlNode × Bool × Bool × Bool × DocState)
  | _, [], s => .ok ([], false, false, false, s)
  | row, .text c :: rest, s =>
    match rtvList row rest s with
    | .error er => .error er
    | .ok (rest2, st, sd, std, s2) => .ok (.text c :: rest2, st, sd, std, s2)
  | row, .tag n0 a0 cs0 :: rest, s =>
    match resolveTextValue row (.tag n0 a0 cs0) s with
    | .error er => .error er
    | .ok (e2, st0, sd0, std0, s1) =>
      if (n0 = wtTr ∨ n0 = wtTbl) ∧ ¬ std0 ∧ sd0 then
        rtvList row rest s1
      else
        match rtvList row rest s1 with
        | .error er => .error er
        | .ok (rest2, st, sd, std, s2) =>
          .ok (e2 :: rest2, st0 || st, sd0 || sd, std0 || std, s2)

end

/-- The loop-variable binding of one iteration: the element itself, with the
1-based `row` key added first when the element is a map (the
`varvalue[&apos;row&apos;] = nrow` line of `__process_paragraph`). -/
def forBind (v : PyVal) (rowN : Int) : PyVal :=
  match v with
  | .dict m => PyVal.dict (dictSet m (strL "row") (.int rowN))
  | w => w

mutual

/-- `WordDocument.process_paragraphs` driving `__process_paragraph`: the
sibling while-loop of the directive engine.  One unit of fuel is consumed
per loop step; the loop itself always terminates in the source, and the
theorems below relate runs at the exact fuel offsets the steps consume. -/
def processParagraphs : Nat → List XmlNode → DocState →
    Except PyErr (List XmlNode × DocState)
  | _, [], s => .ok ([], s)
  | 0, _ :: _, _ => .error .fuelErr
  | fuel + 1, .text _ :: rest, s => processParagraphs fuel rest s
  | fuel + 1, .tag n a cs :: rest, s =>
        if n = wtP then
          match getDirective (.tag n a cs) with
          | .error er => .error er
          | .ok (some (kw, arg)) =>
            if kw = strL "style" then
              match processStyleDirective arg s.styleMap with
              | .error er => .error er
              | .ok sm => processParagraphs fuel rest { s with styleMap := sm }
            else if kw = strL "if" then
              match resolveValue Option.none arg s with
              | .error er => .error er
              | .ok (v, s1) =>
                match getBlocksUntilEndif (pyTruthy v) (.tag n a cs :: rest) with
                | .error er => .error er
                | .ok (kept, tail) => processParagraphs fuel (kept ++ tail) s1
            else if kw = strL "for" then
              match getForValues arg with
              | .error er => .error er
              | .ok (varName, listName) =>
                match resolveValue Option.none listName s with
                | .error er => .error er
                | .ok (v, s1) =>
                  match getBlocksUntilEndfor (.tag n a cs :: rest) with
                  | .error er => .error er
                  | .ok (forBlocks, tail) =>
                    match pyIter v with
                    | .error er => .error er
                    | .ok vs =>
                      match forLoop fuel varName forBlocks vs 1 s1 with
                      | .error er => .error er
                      | .ok (out, s2) =>
                        let dpReset := dictSet s2.defaultParams varName (.dict [])
                        let s3 := { s2 with defaultParams := dpReset }
                        match processParagraphs fuel tail s3 with
                        | .error er => .error er
                        | .ok (tailOut, s4) => .ok (out ++ tailOut, s4)
            else processParagraphs fuel rest s
          | .ok Option.none =>
            match resolveTextValue Option.none (.tag n a cs) s with
            | .error er => .error er
            | .ok (e2, _, sd, _, s1) =>
              match (if sd then isParagraphEmpty e2 else .ok false) with
              | .error er => .error er
              | .ok true => processParagraphs fuel rest s1
              | .ok false =>
                match processParagraphs fuel rest s1 with
                | .error er => .error er
                | .ok (restOut, s2) => .ok (e2 :: restOut, s2)
        else if n = wtTbl then
          match processTable fuel (.tag n a cs) s with
          | .error er => .error er
          | .ok (e2, s1) =>
            match processParagraphs fuel rest s1 with
            | .error er => .error er
            | .ok (restOut, s2) => .ok (e2 :: restOut, s2)
        else
          match resolveTextValue Option.none (.tag n a cs) s with
          | .error er => .error er
          | .ok (e2, _, _, _, s1) =>
            match processParagraphs fuel rest s1 with
            | .error er => .error er
            | .ok (restOut, s2) => .ok (e2 :: restOut, s2)

/-- The `for varvalue in for_list` loop of `__process_paragraph`: binds the
loop variable (adding the 1-based `row` key when the element is a map),
deep-clones the body span, processes the clones, and concatenates the
iteration outputs. -/
def forLoop : Nat → Str → List XmlNode → List PyVal → Int → DocState →
    Except PyErr (List XmlNode × DocState)
  | _, _, _, [], _, s => .ok ([], s)
  | fuel, varName, forBlocks, v :: vrest, rowN, s =>
    match processParagraphs fuel (XmlNode.cloneDeepList forBlocks)
        { s with defaultParams := dictSet s.defaultParams varName (forBind v rowN) } with
    | .error er => .error er
    | .ok (group, s2) =>
      match forLoop fuel varName forBlocks vrest (rowN + 1) s2 with
      | .error er => .error er
      | .ok (groups, s3) => .ok (group ++ groups, s3)

/-- `WordDocument.__process_table`: recurses through the table structure
down to the cells, whose children go through the paragraph pass; the
source reads `.name` on any child, so a text child is an
`AttributeError`. -/
def processTable : Nat → XmlNode → DocState → Except PyErr (XmlNode × DocState)
  | _, .text _, _ => .error .attrErr
  | fuel, .tag n a cs, s =>
    if n ≠ wtTc then
      match ptList fuel cs s with
      | .error er => .error er
      | .ok (cs2, s2) => .ok (.tag n a cs2, s2)
    else
      match processParagraphs fuel cs s with
      | .error er => .error er
      | .ok (cs2, s2) => .ok (.tag n a cs2, s2)

/-- The child iteration of `__process_table`. -/
def ptList : Nat → List XmlNode → DocState → Except PyErr (List XmlNode × DocState)
  | _, [], s => .ok ([], s)
  | fuel, c :: rest, s =>
    match processTable fuel c s with
    | .error er => .error er
    | .ok (c2, s1) =>
      match ptList fuel rest s1 with
      | .error er => .error er
      | .ok (rest2, s2) => .ok (c2 :: rest2, s2)

end

/-! ## C4: unresolved placeholders substitute the empty string, ledger once -/

theorem resolveValue_unresolved (p : Str) (s : DocState)
    (h1 : resolveParamValue s.defaultParams Option.none p = (s.defaultParams, .ok PyVal.none))
    (h2 : s.valueResolver Option.none p = .ok PyVal.none) :
    resolveValue Option.none p s
      = .ok (.str [], { s with errList :=
          if s.errList.contains p then s.errList else s.errList ++ [p] }) := by
  unfold resolveValue
  rw [h1]
  simp only [h2]

theorem isPrefixOf_self_append (pat x : Str) : pat.isPrefixOf (pat ++ x) = true :=
  List.isPrefixOf_iff_prefix.mpr (List.prefix_append pat x)

theorem openB_len_eq : openB.length = 2 := rfl

theorem w1_len (p : Str) : (openB ++ (p ++ closeB)).length = p.length + 4 := by
  simp only [List.length_append, openB_len_eq, closeB_len]
  omega

theorem w1_find_open (p : Str) : findFrom (openB ++ (p ++ closeB)) openB 0 = some 0 :=
  findFrom_exact openB_ne (Nat.zero_le 0)
    (by simpa using isPrefixOf_self_append openB (p ++ closeB))
    (fun k _ hk => absurd hk (by omega))

theorem w1_char (p : Str) (k : Nat) (hk : k < p.length + 2)
    (hp : ∀ c ∈ p, c ≠ Char.ofNat 125) :
    closeB.isPrefixOf ((openB ++ (p ++ closeB)).drop k) = false := by
  by_contra hpre
  simp only [Bool.not_eq_false] at hpre
  have hchar := closeB_prefix_char hpre
  by_cases h2 : k < 2
  · rw [List.get?_append (by simpa [openB_len_eq] using h2)] at hchar
    have : openB.get? k = some (Char.ofNat 123) := by
      interval_cases k <;> rfl
    rw [this] at hchar
    simp at hchar
  · push_neg at h2
    rw [List.get?_append_right (by simpa [openB_len_eq] using h2)] at hchar
    rw [openB_len_eq] at hchar
    rw [List.get?_append (by omega)] at hchar
    have hmem : Char.ofNat 125 ∈ p := List.get?_mem hchar
    exact hp _ hmem rfl

theorem w1_find_close (p : Str) (hp : ∀ c ∈ p, c ≠ Char.ofNat 125) :
    findFrom (openB ++ (p ++ closeB)) closeB 0 = some (p.length + 2) := by
  apply findFrom_exact closeB_ne (Nat.zero_le _)
  · rw [show openB ++ (p ++ closeB) = (openB ++ p) ++ closeB by simp,
      show p.length + 2 = (openB ++ p).length by simp [openB_len_eq]; omega,
      List.drop_left]
    simpa using isPrefixOf_self_append closeB []
  · intro k _ hk
    exact w1_char p k hk hp

theorem w1_param (p : Str) : slice (openB ++ (p ++ closeB)) 2 (p.length + 2) = p := by
  unfold slice
  rw [show openB ++ (p ++ closeB) = (openB ++ p) ++ closeB by simp,
    show p.length + 2 = (openB ++ p).length by simp [openB_len_eq]; omega,
    List.take_left,
    show (2 : Nat) = openB.length from rfl,
    List.drop_left]

theorem w1_find_open_end (p : Str) :
    findFrom (openB ++ (p ++ closeB)) openB (p.length + 4) = Option.none := by
  apply findFrom_eq_none
  intro k hk
  have : (openB ++ (p ++ closeB)).drop k = [] :=
    List.drop_eq_nil_of_le (by rw [w1_len]; omega)
  rw [this]
  exact isPrefixOf_nil_false openB_ne

theorem w1_drop_end (p : Str) : sliceFrom (openB ++ (p ++ closeB)) (p.length + 4) = [] := by
  unfold sliceFrom
  exact List.drop_eq_nil_of_le (by rw [w1_len])

/-- One `w:t` node holding exactly one unresolved placeholder: its content
becomes empty, the flags are (no text, had substitution, no non-empty
substitution), and the parameter is appended to the failed ledger unless
already present. -/
theorem rtv_single (p : Str) (a1 : List (Str × Option AttrV)) (s : DocState)
    (h1 : resolveParamValue s.defaultParams Option.none p = (s.defaultParams, .ok PyVal.none))
    (h2 : s.valueResolver Option.none p = .ok PyVal.none)
    (hp : ∀ c ∈ p, c ≠ Char.ofNat 125) :
    resolveTextValue Option.none (.tag wtT a1 [.text (openB ++ (p ++ closeB))]) s
      = .ok (.tag wtT a1 [.text []], false, true, false,
          { s with errList :=
            if s.errList.contains p then s.errList else s.errList ++ [p] }) := by
  unfold resolveTextValue
  simp only [List.isEmpty, if_false, ite_false, ne_eq, not_true_eq_false]
  rw [if_neg (show ¬ (false = true) by decide)]
  unfold rtvTextCase
  simp only [w1_find_open p, w1_len]
  simp only [rtvScan, w1_find_close p hp]
  rw [if_neg (show ¬ (p.length + 2 ≤ 0) by omega)]
  simp only [Nat.zero_add, w1_param p, resolveValue_unresolved p s h1 h2]
  simp only [show p.length + 2 + 2 = p.length + 4 from by omega,
    w1_find_open_end p, w1_drop_end]
  simp [slice, pyStr]

theorem contains_append_self (l : List Str) (p : Str) :
    (l ++ [p]).contains p = true := by
  have hm : p ∈ l ++ [p] := by simp
  exact List.elem_iff.mpr hm

/-- C4: an unresolved placeholder substitutes the empty string, and two
occurrences of the same placeholder in the document leave the expression in
the failed-parameter ledger exactly once. -/
theorem claimC4 (p : Str) (a0 a1 a2 : List (Str × Option AttrV)) (s : DocState)
    (h1 : resolveParamValue s.defaultParams Option.none p = (s.defaultParams, .ok PyVal.none))
    (h2 : s.valueResolver Option.none p = .ok PyVal.none)
    (h3 : s.errList.contains p = false)
    (hp : ∀ c ∈ p, c ≠ Char.ofNat 125) :
    resolveTextValue Option.none
      (.tag wtR a0
        [.tag wtT a1 [.text (openB ++ (p ++ closeB))],
         .tag wtT a2 [.text (openB ++ (p ++ closeB))]]) s
      = .ok (.tag wtR a0 [.tag wtT a1 [.text []], .tag wtT a2 [.text []]],
          false, true, false, { s with errList := s.errList ++ [p] })
    ∧ (s.errList ++ [p]).count p = 1 := by
  have hnotmem : p ∉ s.errList := by
    intro hm
    have h3e : List.elem p s.errList = false := h3
    rw [List.elem_iff.mpr hm] at h3e
    exact Bool.noConfusion h3e
  constructor
  · unfold resolveTextValue
    simp only [List.isEmpty, ite_false]
    rw [if_neg (show ¬ (false = true) by decide)]
    rw [if_pos (show wtR ≠ wtT by decide)]
    unfold rtvList
    simp only [rtv_single p a1 s h1 h2 hp, h3]
    have hntr : ¬ (wtT = wtTr ∨ wtT = wtTbl) := by decide
    simp only [hntr, false_and, if_false, ite_false]
    have hif : (if (false : Bool) = true then s.errList else s.errList ++ [p])
        = s.errList ++ [p] := by simp
    simp only [hif]
    unfold rtvList
    simp only [rtv_single p a2
      { s with errList := s.errList ++ [p] } h1 h2 hp]
    simp only [contains_append_self s.errList p, if_true, ite_true]
    unfold rtvList
    simp only [hntr, false_and, if_false, ite_false, Bool.false_or, Bool.or_false,
      Bool.true_or]
  · rw [List.count_append]
    rw [List.count_eq_zero.mpr hnotmem]
    simp

/-! ## C1: if/else branch exclusivity -/

/-- The status trace over a directive span: feeds each sibling through the
status machine, failing (to `none`) if the searched block closes inside the
span. -/
def ifWalk (st : ProcessStatus) : List XmlNode → Except PyErr (Option ProcessStatus)
  | [] => .ok (some st)
  | e :: rest =>
    match processDirectiveWithStatus e st with
    | .error er => .error er
    | .ok (st2, found) =>
      if found then .ok Option.none else ifWalk st2 rest

theorem pdk_elseMode_mono (st : ProcessStatus) (k : Str)
    (h : st.elseMode = true) :
    (processDirectiveKeyword st k).1.elseMode = true := by
  unfold processDirectiveKeyword
  split_ifs <;> simp_all

theorem pdk_search_eq (st : ProcessStatus) (k : Str) (x : Str)
    (h : st.search = some x) :
    (processDirectiveKeyword st k).1.search = some x := by
  unfold processDirectiveKeyword
  split_ifs <;> simp_all

theorem pdws_elseMode_mono {e : XmlNode} {st st2 : ProcessStatus} {found : Bool}
    (h : processDirectiveWithStatus e st = .ok (st2, found))
    (hm : st.elseMode = true) : st2.elseMode = true := by
  unfold processDirectiveWithStatus at h
  cases hd : getDirective e with
  | error er => rw [hd] at h; exact Except.noConfusion h
  | ok kv =>
    rw [hd] at h
    cases kv with
    | none =>
      simp only [Except.ok.injEq, Prod.mk.injEq] at h
      rw [← h.1]
      exact hm
    | some kv0 =>
      simp only [Except.ok.injEq] at h
      have : st2 = (processDirectiveKeyword st kv0.1).1 := by
        rw [h]
      rw [this]
      exact pdk_elseMode_mono st kv0.1 hm

theorem pdws_search_eq {e : XmlNode} {st st2 : ProcessStatus} {found : Bool} {x : Str}
    (h : processDirectiveWithStatus e st = .ok (st2, found))
    (hs : st.search = some x) : st2.search = some x := by
  unfold processDirectiveWithStatus at h
  cases hd : getDirective e with
  | error er => rw [hd] at h; exact Except.noConfusion h
  | ok kv =>
    rw [hd] at h
    cases kv with
    | none =>
      simp only [Except.ok.injEq, Prod.mk.injEq] at h
      rw [← h.1]
      exact hs
    | some kv0 =>
      simp only [Except.ok.injEq] at h
      have : st2 = (processDirectiveKeyword st kv0.1).1 := by
        rw [h]
      rw [this]
      exact pdk_search_eq st kv0.1 x hs

theorem ifWalk_elseMode_mono :
    ∀ (A : List XmlNode) (st stA : ProcessStatus),
      ifWalk st A = .ok (some stA) → st.elseMode = true → stA.elseMode = true := by
  intro A
  induction A with
  | nil =>
    intro st stA h hm
    simp only [ifWalk, Except.ok.injEq, Option.some.injEq] at h
    rw [← h]; exact hm
  | cons e rest ih =>
    intro st stA h hm
    unfold ifWalk at h
    cases hp : processDirectiveWithStatus e st with
    | error er => rw [hp] at h; exact Except.noConfusion h
    | ok p =>
      rw [hp] at h
      cases p with
      | mk st2 found =>
        by_cases hf : found = true
        · rw [hf] at h; simp at h
        · simp only [Bool.not_eq_true] at hf
          rw [hf] at h
          simp only [if_false, Bool.false_eq_true, ite_false] at h
          exact ih st2 stA h (pdws_elseMode_mono hp hm)

theorem ifWalk_search_eq :
    ∀ (A : List XmlNode) (st stA : ProcessStatus) (x : Str),
      ifWalk st A = .ok (some stA) → st.search = some x → stA.search = some x := by
  intro A
  induction A with
  | nil =>
    intro st stA x h hs
    simp only [ifWalk, Except.ok.injEq, Option.some.injEq] at h
    rw [← h]; exact hs
  | cons e rest ih =>
    intro st stA x h hs
    unfold ifWalk at h
    cases hp : processDirectiveWithStatus e st with
    | error er => rw [hp] at h; exact Except.noConfusion h
    | ok p =>
      rw [hp] at h
      cases p with
      | mk st2 found =>
        by_cases hf : found = true
        · rw [hf] at h; simp at h
        · simp only [Bool.not_eq_true] at hf
          rw [hf] at h
          simp only [if_false, Bool.false_eq_true, ite_false] at h
          exact ih st2 stA x h (pdws_search_eq hp hs)

/-- `true` when every node is an element (text siblings inside an extracted
span would be deleted from either branch). -/
def allTags : List XmlNode → Bool
  | [] => true
  | .text _ :: _ => false
  | .tag _ _ _ :: rest => allTags rest

theorem gbeLoop_span (isTrue : Bool) (z : List XmlNode) :
    ∀ (A : List XmlNode) (st stA : ProcessStatus),
      allTags A = true →
      ifWalk st A = .ok (some stA) →
      stA.elseMode = false →
      gbeLoop isTrue st (A ++ z)
        = match gbeLoop isTrue stA z with
          | .error er => .error er
          | .ok (kept, tail) => .ok ((if isTrue then A ++ kept else kept), tail) := by
  intro A
  induction A with
  | nil =>
    intro st stA _ hw _
    simp only [ifWalk, Except.ok.injEq, Option.some.injEq] at hw
    subst hw
    simp only [List.nil_append]
    cases gbeLoop isTrue st z with
    | error er => rfl
    | ok p => cases p; cases isTrue <;> simp
  | cons e rest ih =>
    intro st stA htags hw helse
    cases e with
    | text c => simp [allTags] at htags
    | tag n a cs =>
      have htags2 : allTags rest = true := htags
      unfold ifWalk at hw
      cases hp : processDirectiveWithStatus (.tag n a cs) st with
      | error er => rw [hp] at hw; exact Except.noConfusion hw
      | ok p =>
        rw [hp] at hw
        cases p with
        | mk st2 found =>
          by_cases hf : found = true
          · rw [hf] at hw; simp at hw
          · simp only [Bool.not_eq_true] at hf
            rw [hf] at hw
            simp only [if_false, Bool.false_eq_true, ite_false] at hw
            have hst2else : st2.elseMode = false := by
              by_contra hcon
              simp only [Bool.not_eq_false] at hcon
              rw [ifWalk_elseMode_mono rest st2 stA hw hcon] at helse
              exact Bool.noConfusion helse
            have hrec := ih st2 stA htags2 hw helse
            simp only [List.cons_append]
            conv_lhs => rw [gbeLoop]
            rw [hp, hf]
            simp only [Bool.false_eq_true, if_false, ite_false, hst2else,
              not_false_eq_true, if_true, ite_true]
            cases isTrue with
            | true =>
              simp only [if_true, ite_true] at hrec ⊢
              rw [hrec]
              cases gbeLoop true stA z with
              | error er => rfl
              | ok q => cases q; simp
            | false =>
              simp only [if_false, Bool.false_eq_true, ite_false] at hrec ⊢
              rw [hrec]

theorem gbeLoop_span_else (isTrue : Bool) (z : List XmlNode) :
    ∀ (B : List XmlNode) (st stB : ProcessStatus),
      allTags B = true →
      st.elseMode = true →
      ifWalk st B = .ok (some stB) →
      gbeLoop isTrue st (B ++ z)
        = match gbeLoop isTrue stB z with
          | .error er => .error er
          | .ok (kept, tail) => .ok ((if isTrue then kept else B ++ kept), tail) := by
  intro B
  induction B with
  | nil =>
    intro st stB _ _ hw
    simp only [ifWalk, Except.ok.injEq, Option.some.injEq] at hw
    subst hw
    simp only [List.nil_append]
    cases gbeLoop isTrue st z with
    | error er => rfl
    | ok p => cases p; cases isTrue <;> simp
  | cons e rest ih =>
    intro st stB htags helse hw
    cases e with
    | text c => simp [allTags] at htags
    | tag n a cs =>
      have htags2 : allTags rest = true := htags
      unfold ifWalk at hw
      cases hp : processDirectiveWithStatus (.tag n a cs) st with
      | error er => rw [hp] at hw; exact Except.noConfusion hw
      | ok p =>
        rw [hp] at hw
        cases p with
        | mk st2 found =>
          by_cases hf : found = true
          · rw [hf] at hw; simp at hw
          · simp only [Bool.not_eq_true] at hf
            rw [hf] at hw
            simp only [if_false, Bool.false_eq_true, ite_false] at hw
            have hst2else : st2.elseMode = true := pdws_elseMode_mono hp helse
            have hrec := ih st2 stB htags2 hst2else hw
            simp only [List.cons_append]
            conv_lhs => rw [gbeLoop]
            rw [hp, hf]
            simp only [Bool.false_eq_true, if_false, ite_false, hst2else,
              not_true_eq_false, if_true, ite_true]
            cases isTrue with
            | true =>
              simp only [not_true_eq_false, if_false, ite_false, if_true,
                ite_true] at hrec ⊢
              rw [hrec]
            | false =>
              simp only [not_false_eq_true, if_true, ite_true, if_false,
                Bool.false_eq_true, ite_false] at hrec ⊢
              rw [hrec]
              cases gbeLoop false stB z with
              | error er => rfl
              | ok q => cases q; simp

/-- The initial searching status right after the opening `if` directive is
fed through the status machine. -/
def ifStartStatus : ProcessStatus :=
  { nifs := 1, nfors := 0, elseMode := false, search := some (strL "if") }

/-- The full extraction behaviour of `__get_blocks_until_endif` on a span
`if … else … endif`: the truthy pass keeps the branch before the `else`
marker, the falsy pass keeps the marker itself together with the branch
after it; either way the kept span is followed by the siblings after
`endif`. -/
theorem gbe_extract (isTrue : Bool)
    (aI aE aF : List (Str × Option AttrV)) (cI cE cF : List XmlNode)
    (argI argE argF : Str) (A B rest : List XmlNode) (stA : ProcessStatus)
    (hdI : getDirective (.tag wtP aI cI) = .ok (some (strL "if", argI)))
    (hdE : getDirective (.tag wtP aE cE) = .ok (some (strL "else", argE)))
    (hdF : getDirective (.tag wtP aF cF) = .ok (some (strL "endif", argF)))
    (hA : allTags A = true) (hB : allTags B = true)
    (hwA : ifWalk ifStartStatus A = .ok (some stA))
    (hAelse : stA.elseMode = false) (hAnifs : stA.nifs = 1)
    (stB : ProcessStatus)
    (hwB : ifWalk { stA with elseMode := true } B = .ok (some stB))
    (hBnifs : stB.nifs = 1) :
    getBlocksUntilEndif isTrue
        (.tag wtP aI cI :: (A ++ .tag wtP aE cE :: (B ++ .tag wtP aF cF :: rest)))
      = .ok ((if isTrue then A else .tag wtP aE cE :: B), rest) := by
  have hsA : stA.search = some (strL "if") :=
    ifWalk_search_eq A ifStartStatus stA (strL "if") hwA rfl
  have hsB : stB.search = some (strL "if") :=
    ifWalk_search_eq B { stA with elseMode := true } stB (strL "if") hwB hsA
  have hBelse : stB.elseMode = true :=
    ifWalk_elseMode_mono B { stA with elseMode := true } stB hwB rfl
  obtain ⟨nifsA, nforsA, elseA, searchA⟩ := stA
  have e1 : nifsA = 1 := hAnifs
  have e2 : elseA = false := hAelse
  have e3 : searchA = some (strL "if") := hsA
  subst e1; subst e2; subst e3
  obtain ⟨nifsB, nforsB, elseB, searchB⟩ := stB
  have f1 : nifsB = 1 := hBnifs
  have f2 : elseB = true := hBelse
  have f3 : searchB = some (strL "if") := hsB
  subst f1; subst f2; subst f3
  have hopen : processDirectiveWithStatus (.tag wtP aI cI)
      { nifs := 0, nfors := 0, elseMode := false, search := some (strL "if") }
      = .ok (ifStartStatus, false) := by
    unfold processDirectiveWithStatus
    rw [hdI]
    rfl
  have helseStep : processDirectiveWithStatus (.tag wtP aE cE)
      ⟨1, nforsA, false, some (strL "if")⟩
      = .ok (⟨1, nforsA, true, some (strL "if")⟩, false) := by
    unfold processDirectiveWithStatus
    rw [hdE]
    rfl
  have hendStep : processDirectiveWithStatus (.tag wtP aF cF)
      ⟨1, nforsB, true, some (strL "if")⟩
      = .ok (⟨0, nforsB, true, some (strL "if")⟩, true) := by
    unfold processDirectiveWithStatus
    rw [hdF]
    rfl
  have step3 : gbeLoop isTrue ⟨1, nforsB, true, some (strL "if")⟩
      (.tag wtP aF cF :: rest) = .ok ([], rest) := by
    conv_lhs => rw [gbeLoop]
    rw [hendStep]
    rfl
  have step2 : gbeLoop isTrue ⟨1, nforsA, true, some (strL "if")⟩
      (B ++ .tag wtP aF cF :: rest)
      = .ok ((if isTrue then ([] : List XmlNode) else B), rest) := by
    rw [gbeLoop_span_else isTrue (.tag wtP aF cF :: rest) B
      ⟨1, nforsA, true, some (strL "if")⟩ ⟨1, nforsB, true, some (strL "if")⟩
      hB rfl hwB, step3]
    cases isTrue <;> simp
  have step1 : gbeLoop isTrue ⟨1, nforsA, false, some (strL "if")⟩
      (.tag wtP aE cE :: (B ++ .tag wtP aF cF :: rest))
      = .ok ((if isTrue then ([] : List XmlNode) else .tag wtP aE cE :: B), rest) := by
    conv_lhs => rw [gbeLoop]
    simp only [helseStep, step2]
    cases isTrue <;> simp
  simp only [getBlocksUntilEndif, hopen]
  rw [gbeLoop_span isTrue (.tag wtP aE cE :: (B ++ .tag wtP aF cF :: rest)) A
    ifStartStatus ⟨1, nforsA, false, some (strL "if")⟩ hA hwA rfl, step1]
  cases isTrue <;> simp

/-- The `if` clause of `__process_paragraph`: evaluating the condition and
splicing the kept branch back before the remaining siblings. -/
theorem pp_if_step (fuel : Nat) (s : DocState) (rest : List XmlNode)
    (a : List (Str × Option AttrV)) (cs : List XmlNode)
    (cond : Str) (v : PyVal) (s1 : DocState)
    (hdir : getDirective (.tag wtP a cs) = .ok (some (strL "if", cond)))
    (hres : resolveValue Option.none cond s = .ok (v, s1))
    (kept tail : List XmlNode)
    (hgbe : getBlocksUntilEndif (pyTruthy v) (.tag wtP a cs :: rest) = .ok (kept, tail)) :
    processParagraphs (fuel + 1) (.tag wtP a cs :: rest) s
      = processParagraphs fuel (kept ++ tail) s1 := by
  simp only [processParagraphs, hdir, hres, hgbe,
    if_pos (show wtP = wtP from rfl),
    if_neg (show ¬ (strL "if" = strL "style") by decide),
    if_pos (show strL "if" = strL "if" from rfl), if_true, ite_true]

/-- The fall-through clause of `__process_paragraph`: a directive paragraph
whose keyword is none of `style`, `if`, `for` is deleted without effect;
this is how a leftover `else` or `endif` marker disappears. -/
theorem pp_skip_step (fuel : Nat) (s : DocState) (rest : List XmlNode)
    (a : List (Str × Option AttrV)) (cs : List XmlNode) (kw arg : Str)
    (hdir : getDirective (.tag wtP a cs) = .ok (some (kw, arg)))
    (h1 : kw ≠ strL "style") (h2 : kw ≠ strL "if") (h3 : kw ≠ strL "for") :
    processParagraphs (fuel + 1) (.tag wtP a cs :: rest) s
      = processParagraphs fuel rest s := by
  simp only [processParagraphs, hdir, if_pos (show wtP = wtP from rfl),
    if_neg h1, if_neg h2, if_neg h3, if_true, ite_true]

/-- A concrete witness paragraph: `w:p` wrapping a single `w:t` text run. -/
def paraW (t : String) : XmlNode :=
  .tag wtP [] [.tag wtT [] [.text (strL t)]]

/-- A witness state whose scope binds `flag` to the integer 1. -/
def sW : DocState :=
  { defaultParams := [(strL "flag", PyVal.int 1)],
    valueResolver := fun _ _ => .ok .none,
    okList := [], errList := [], styleMap := [] }

/-- The witness state after the condition resolves: `flag` lands in the
resolved ledger. -/
def sW1 : DocState := { sW with okList := [strL "flag"] }

/-- C1: for a span `\x7b% if cond %\x7d A \x7b% else %\x7d B \x7b% endif %\x7d`
whose branch spans consist of elements that close no surrounding block, the
directive engine keeps exactly one branch: processing continues on
`A ++ rest` when the condition resolves to a truthy value and on `B ++ rest`
when it resolves to a falsy one — never both branches and never neither. -/
theorem claimC1 (fuel : Nat) (s s1 : DocState) (v : PyVal) (cond : Str)
    (aI aE aF : List (Str × Option AttrV)) (cI cE cF : List XmlNode)
    (argE argF : Str) (A B rest : List XmlNode) (stA stB : ProcessStatus)
    (hdI : getDirective (.tag wtP aI cI) = .ok (some (strL "if", cond)))
    (hdE : getDirective (.tag wtP aE cE) = .ok (some (strL "else", argE)))
    (hdF : getDirective (.tag wtP aF cF) = .ok (some (strL "endif", argF)))
    (hA : allTags A = true) (hB : allTags B = true)
    (hwA : ifWalk ifStartStatus A = .ok (some stA))
    (hAelse : stA.elseMode = false) (hAnifs : stA.nifs = 1)
    (hwB : ifWalk { stA with elseMode := true } B = .ok (some stB))
    (hBnifs : stB.nifs = 1)
    (hres : resolveValue Option.none cond s = .ok (v, s1)) :
    (pyTruthy v = true →
      processParagraphs (fuel + 1)
          (.tag wtP aI cI :: (A ++ .tag wtP aE cE :: (B ++ .tag wtP aF cF :: rest))) s
        = processParagraphs fuel (A ++ rest) s1) ∧
    (pyTruthy v = false →
      processParagraphs (fuel + 2)
          (.tag wtP aI cI :: (A ++ .tag wtP aE cE :: (B ++ .tag wtP aF cF :: rest))) s
        = processParagraphs fuel (B ++ rest) s1) := by
  have hgbe := gbe_extract (pyTruthy v) aI aE aF cI cE cF cond argE argF A B rest
    stA hdI hdE hdF hA hB hwA hAelse hAnifs stB hwB hBnifs
  constructor
  · intro ht
    have hstep := pp_if_step fuel s
      (A ++ .tag wtP aE cE :: (B ++ .tag wtP aF cF :: rest)) aI cI cond v s1
      hdI hres _ rest hgbe
    rw [hstep, if_pos ht]
  · intro hf
    have hnt : ¬ (pyTruthy v = true) := by rw [hf]; exact Bool.false_ne_true
    have hstep := pp_if_step (fuel + 1) s
      (A ++ .tag wtP aE cE :: (B ++ .tag wtP aF cF :: rest)) aI cI cond v s1
      hdI hres _ rest hgbe
    show processParagraphs (fuel + 1 + 1)
        (.tag wtP aI cI :: (A ++ .tag wtP aE cE :: (B ++ .tag wtP aF cF :: rest))) s
      = processParagraphs fuel (B ++ rest) s1
    rw [hstep, if_neg hnt]
    show processParagraphs (fuel + 1) (.tag wtP aE cE :: (B ++ rest)) s1
      = processParagraphs fuel (B ++ rest) s1
    exact pp_skip_step fuel s1 (B ++ rest) aE cE (strL "else") argE hdE
      (by decide) (by decide) (by decide)

/-- C1 witness: a concrete truthy span `\x7b% if flag %\x7d … \x7b% else %\x7d
… \x7b% endif %\x7d` over the scope `flag = 1` keeps exactly the first
branch. -/
theorem claimC1_witness :
    processParagraphs 1
        (paraW "\x7b% if flag %\x7d" :: ([paraW "Hello"] ++
          paraW "\x7b% else %\x7d" :: ([paraW "Bye"] ++
          paraW "\x7b% endif %\x7d" :: []))) sW
      = processParagraphs 0 ([paraW "Hello"] ++ []) sW1 :=
  (claimC1 0 sW sW1 (PyVal.int 1) (strL "flag") [] [] []
    [XmlNode.tag wtT [] [XmlNode.text (strL "\x7b% if flag %\x7d")]]
    [XmlNode.tag wtT [] [XmlNode.text (strL "\x7b% else %\x7d")]]
    [XmlNode.tag wtT [] [XmlNode.text (strL "\x7b% endif %\x7d")]]
    [] [] [paraW "Hello"] [paraW "Bye"] []
    ifStartStatus { ifStartStatus with elseMode := true }
    rfl rfl rfl rfl rfl rfl rfl rfl rfl rfl rfl).1 rfl

/-! ## C2: for-loop cardinality and row binding -/

/-- The per-iteration contract of the `for` loop: iteration `i` processes a
fresh deep clone of the body under a scope binding the loop variable to that
iteration's element (its `row` key set to the 1-based index when it is a
map), and consecutive iterations chain their document states. -/
def forChain (fuel : Nat) (varName : Str) (forBlocks : List XmlNode) :
    List PyVal → Int → DocState → List (List XmlNode) → DocState → Prop
  | [], _, s, gs, sf => gs = [] ∧ sf = s
  | v :: vrest, i, s, gs, sf =>
    ∃ g grest s2, gs = g :: grest ∧
      processParagraphs fuel (XmlNode.cloneDeepList forBlocks)
        { s with defaultParams := dictSet s.defaultParams varName (forBind v i) }
        = .ok (g, s2) ∧
      forChain fuel varName forBlocks vrest (i + 1) s2 grest sf

theorem dictGet_dictSet {α : Type} (m : List (Str × α)) (k : Str) (v : α) :
    dictGet (dictSet m k v) k = some v := by
  induction m with
  | nil => simp [dictSet, dictGet]
  | cons kv rest ih =>
    obtain ⟨k0, v0⟩ := kv
    by_cases h : k0 = k
    · subst h
      simp [dictSet, dictGet]
    · simp [dictSet, dictGet, h, ih]

theorem forLoop_cons (fuel : Nat) (varName : Str) (forBlocks : List XmlNode)
    (v : PyVal) (vrest : List PyVal) (rowN : Int) (s : DocState) :
    forLoop fuel varName forBlocks (v :: vrest) rowN s
      = match processParagraphs fuel (XmlNode.cloneDeepList forBlocks)
          { s with defaultParams := dictSet s.defaultParams varName (forBind v rowN) } with
        | .error er => .error er
        | .ok (group, s2) =>
          match forLoop fuel varName forBlocks vrest (rowN + 1) s2 with
          | .error er => .error er
          | .ok (groups, s3) => .ok (group ++ groups, s3) := by
  simp only [forLoop]

theorem forLoop_chain :
    ∀ (vs : List PyVal) (fuel : Nat) (varName : Str) (forBlocks : List XmlNode)
      (rowN : Int) (s : DocState) (out : List XmlNode) (sf : DocState),
      forLoop fuel varName forBlocks vs rowN s = .ok (out, sf) →
      ∃ gs : List (List XmlNode), gs.length = vs.length ∧ out = gs.join ∧
        forChain fuel varName forBlocks vs rowN s gs sf := by
  intro vs
  induction vs with
  | nil =>
    intro fuel varName forBlocks rowN s out sf h
    simp only [forLoop, Except.ok.injEq, Prod.mk.injEq] at h
    refine ⟨[], rfl, ?_, rfl, h.2.symm⟩
    simp [← h.1]
  | cons v vrest ih =>
    intro fuel varName forBlocks rowN s out sf h
    rw [forLoop_cons] at h
    cases hp : processParagraphs fuel (XmlNode.cloneDeepList forBlocks)
        { s with defaultParams := dictSet s.defaultParams varName (forBind v rowN) } with
    | error er => rw [hp] at h; exact Except.noConfusion h
    | ok p =>
      rw [hp] at h
      obtain ⟨g, s2⟩ := p
      simp only [] at h
      cases hq : forLoop fuel varName forBlocks vrest (rowN + 1) s2 with
      | error er => rw [hq] at h; exact Except.noConfusion h
      | ok q =>
        rw [hq] at h
        obtain ⟨groups, s3⟩ := q
        simp only [Except.ok.injEq, Prod.mk.injEq] at h
        obtain ⟨gs, hlen, hjoin, hchain⟩ :=
          ih fuel varName forBlocks (rowN + 1) s2 groups s3 hq
        refine ⟨g :: gs, by simp [hlen], ?_, g, gs, s2, rfl, hp, ?_⟩
        · rw [← h.1]
          simp [hjoin]
        · rw [← h.2]
          exact hchain

/-- C2: a `for` over a list value iterates over exactly its elements, so a
list of length `N` produces exactly `N` processed deep clones of the body
(zero for the empty list) whose states chain left to right, the `i`-th
iteration (1-based) binding the loop variable to the `i`-th element with its
`row` key set to `i` when the element is a map; the unresolved marker (the
empty string a failed resolution substitutes) yields zero iterations; and a
key written into the scope map is the one a lookup then sees. -/
theorem claimC2 :
    (∀ (vs : List PyVal) (fuel : Nat) (varName : Str) (forBlocks : List XmlNode)
        (rowN : Int) (s : DocState) (out : List XmlNode) (sf : DocState),
      forLoop fuel varName forBlocks vs rowN s = .ok (out, sf) →
      ∃ gs : List (List XmlNode), gs.length = vs.length ∧ out = gs.join ∧
        forChain fuel varName forBlocks vs rowN s gs sf) ∧
    (∀ xs : List PyVal, pyIter (.list xs) = .ok xs) ∧
    pyIter (.str []) = .ok [] ∧
    (∀ (varMap : List (Str × PyVal)) (varName : Str) (v : PyVal),
      dictGet (dictSet varMap varName v) varName = some v) :=
  ⟨forLoop_chain, fun _ => rfl, rfl, fun m k v => dictGet_dictSet m k v⟩

/-- C2 witness: a two-element list (a map and an integer) runs exactly two
chained iterations, the first binding `row := 1` inside the map. -/
theorem claimC2_witness :
    ∃ gs : List (List XmlNode), gs.length = 2 ∧ ([] : List XmlNode) = gs.join ∧
      forChain 1 (strL "x") [] [PyVal.dict [], PyVal.int 7] 1 sW gs
        { sW with defaultParams := [(strL "flag", PyVal.int 1), (strL "x", PyVal.int 7)] } :=
  claimC2.1 [PyVal.dict [], PyVal.int 7] 1 (strL "x") [] 1 sW []
    { sW with defaultParams := [(strL "flag", PyVal.int 1), (strL "x", PyVal.int 7)] }
    (by simp only [forLoop, XmlNode.cloneDeepList, processParagraphs, forBind,
          dictSet, sW, strL]
        simp)

/-- `resolve_param_repeating` (base/utils.py): the default repeat resolver
evaluates the expression at row 0 and returns the list length, `-1` for any
non-list value. -/
def resolveParamRepeating (valueMap : List (Str × PyVal)) (param : Str) :
    Except PyErr (List (Str × PyVal) × Int) :=
  match resolveParamValue valueMap (some 0) param with
  | (_, .error e) => .error e
  | (dp, .ok v) =>
    match v with
    | .list xs => .ok (dp, (xs.length : Int))
    | _ => .ok (dp, -1)

/-- One iteration body of the `for row2 in range(0, total)` loop of
`HtmlDocument.__process_html_fragment` (html/document.py lines 72-77), run
before the fragment recursion: in test mode nothing is bound; otherwise
the loop variable is rebound to the `row2`-th element — an empty map when
`value` is not a list or the index is out of range — storing it into
`default_params` and then executing `value2[&apos;row&apos;] = pos` on the
same object, so a map ends bound with its `row` key set, and any other
element raises `TypeError` through the item assignment. -/
def htmlForIter (testMode : Bool) (varname1 : Str) (value : PyVal)
    (row2 : Nat) (pos : Int) (dp : List (Str × PyVal)) :
    Except PyErr (List (Str × PyVal) × Int) :=
  if testMode then .ok (dp, pos)
  else
    let value2 := match value with
      | .list xs => if row2 < xs.length then (xs.get? row2).getD (.dict []) else .dict []
      | _ => .dict []
    match value2 with
    | .dict m => .ok (dictSet dp varname1 (.dict (dictSet m (strL "row") (.int pos))), pos + 1)
    | _ => .error .typeErr

/-- The `for row2 in range(0, total)` loop itself (html/document.py lines
71-79): `total` iterations counted down, `row2` counted up from 0, the
1-based `pos` threaded through the bindings; the fragment recursion
`__process_html_fragment(sub_content, row2)` on the loop body is the
abstract `frag`, its outputs concatenated into `out`. -/
def htmlForRange (testMode : Bool) (varname1 : Str) (value : PyVal)
    (frag : Nat → Except PyErr Str) :
    Nat → Nat → Int → Str → List (Str × PyVal) →
      Except PyErr (Str × List (Str × PyVal) × Int)
  | 0, _, pos, out, dp => .ok (out, dp, pos)
  | total + 1, row2, pos, out, dp =>
    match htmlForIter testMode varname1 value row2 pos dp with
    | .error e => .error e
    | .ok (dp2, pos2) =>
      match frag row2 with
      | .error e => .error e
      | .ok o => htmlForRange testMode varname1 value frag total (row2 + 1) pos2 (out ++ o) dp2

/-- The `for` branch of `__process_html_fragment` around the loop
(html/document.py lines 66-79): the repetition count is forced to 1 in
test mode — `if self.test_mode: total = 1` — before the loop runs from
`pos = 1` with an empty output. -/
def htmlForBranch (testMode : Bool) (varname1 : Str) (value : PyVal)
    (total0 : Nat) (frag : Nat → Except PyErr Str) (dp : List (Str × PyVal)) :
    Except PyErr (Str × List (Str × PyVal) × Int) :=
  htmlForRange testMode varname1 value frag (if testMode then 1 else total0) 0 1 [] dp

/-- C2 counterexample: the claim also cites the `HtmlDocument` fragment
engine, where it fails. Over `nums = [1, 2]` the repeat resolver yields 2,
but the first iteration of `\x7b% for x in nums %\x7d` raises `TypeError` —
`value2[&apos;row&apos;] = pos` item-assigns into the integer element —
instead of producing two bound clones; and in test mode the loop runs
exactly one iteration whatever the list length. -/
theorem claimC2_counterexample :
    resolveParamRepeating [(strL "nums", PyVal.list [PyVal.int 1, PyVal.int 2])]
        (strL "nums")
      = .ok ([(strL "nums", PyVal.list [PyVal.int 1, PyVal.int 2]),
          (strL "row", PyVal.int 0)], 2) ∧
    htmlForBranch false (strL "x") (PyVal.list [PyVal.int 1, PyVal.int 2]) 2
        (fun _ => .ok []) [] = .error .typeErr ∧
    (∀ (total0 : Nat) (frag : Nat → Except PyErr Str) (dp : List (Str × PyVal)),
      htmlForBranch true (strL "x") (PyVal.list [PyVal.int 1, PyVal.int 2]) total0 frag dp
        = match frag 0 with
          | .error e => .error e
          | .ok o => .ok (o, dp, 1)) := by
  refine ⟨rfl, rfl, ?_⟩
  intro total0 frag dp
  unfold htmlForBranch
  rw [if_pos rfl]
  unfold htmlForRange htmlForIter
  rw [if_pos rfl]
  cases frag 0 with
  | error e => rfl
  | ok o => simp [htmlForRange]

/-! ## C3: identifier reassignment after for-clones -/

/-- A for-loop body paragraph carrying the integer-valued `id` attribute 7:
`<w:p id="7"><w:t>Hi</w:t></w:p>`. -/
def c3Body : XmlNode :=
  .tag wtP [(strL "id", some (.s (strL "7")))] [.tag wtT [] [.text (strL "Hi")]]

/-- A paragraph with no directive and no placeholder passes through the
paragraph pass unchanged, whatever the state. -/
theorem pp_c3Body (fuel : Nat) (sX : DocState) :
    processParagraphs (fuel + 1) [c3Body] sX = .ok ([c3Body], sX) := by
  have hd : getDirective c3Body = .ok Option.none := rfl
  have hrtv : resolveTextValue Option.none c3Body sX
      = .ok (c3Body, true, false, false, sX) := rfl
  simp only [c3Body] at hd hrtv ⊢
  simp only [processParagraphs, hd, hrtv, if_pos (show wtP = wtP from rfl),
    Bool.false_eq_true, if_false, ite_false, if_true, ite_true]

/-- C3: the `docx` engine never invokes its `__reassign_ids` helper — the
`for` loop emits verbatim deep clones — so a body paragraph carrying
`id="7"` comes out of a two-element loop as two siblings both still
carrying `id="7"`: the emitted `id` values are neither pairwise distinct
nor greater than the pre-clone maximum, contrary to the claimed
invariant. -/
theorem claimC3 :
    ∃ sf : DocState,
      forLoop (0 + 1) (strL "x") [c3Body] [PyVal.int 1, PyVal.int 2] 1 sW
        = .ok ([c3Body, c3Body], sf) := by
  refine ⟨{ sW with defaultParams :=
    [(strL "flag", PyVal.int 1), (strL "x", PyVal.int 2)] }, ?_⟩
  rw [forLoop_cons, XmlNode.cloneDeepList_eq, pp_c3Body 0]
  simp only []
  rw [forLoop_cons, XmlNode.cloneDeepList_eq, pp_c3Body 0]
  simp only []
  simp only [forLoop]
  rfl

/-- C4 witness: a document state with an empty scope, the placeholder
`missing.key` twice, ledger count one. -/
theorem claimC4_witness :
    testState.errList.contains (strL "missing.key") = false ∧
      (resolveTextValue Option.none
        (.tag wtR []
          [.tag wtT [] [.text (openB ++ (strL "missing.key" ++ closeB))],
           .tag wtT [] [.text (openB ++ (strL "missing.key" ++ closeB))]]) testState
        = .ok (.tag wtR [] [.tag wtT [] [.text []], .tag wtT [] [.text []]],
            false, true, false,
            { testState with errList := testState.errList ++ [strL "missing.key"] })
      ∧ (testState.errList ++ [strL "missing.key"]).count (strL "missing.key") = 1) :=
  ⟨rfl, claimC4 (strL "missing.key") [] [] [] testState rfl rfl rfl (by decide)⟩

/-! ## C8: idempotence of the run-collapsing pass -/

/-- Python `str` of an attribute value (`escape_attr_value` coerces ints
with `str` before escaping). -/
def attrVStr : AttrV → Str
  | .s v => v
  | .i n => pyStr (.int n)

/-- The writer's default `AUTO_END_TAGS` list (`HTML_AUTO_END_TAGS`). -/
def htmlAutoEndTags : List Str := [strL "img", strL "br", strL "meta", strL "input"]

/-- The attribute serialization of `XmlTag.write`: ` name`, and `="escaped"`
when the value is not `None`. -/
def writeAttrs : List (Str × Option AttrV) → Str
  | [] => []
  | (an, av) :: rest =>
    strL " " ++ an ++
      (match av with
       | Option.none => []
       | some v => strL "=\x22" ++ escapeAttrValue (attrVStr v) ++ strL "\x22") ++
      writeAttrs rest

mutual

/-- `XmlTag.write`/`XmlText.write` with `PRETTY_OUTPUT = False` (the
configuration `__is_the_same_rpr` serializes under via
`XmlParser.get_xml`): without indentation the single-text special case
writes the same bytes as the general loop, so one branch serves both. -/
def writeNode : XmlNode → Str
  | .text c => escapeEntities c
  | .tag n a cs =>
    strL "<" ++ n ++ writeAttrs a ++
      (if cs.isEmpty then
        (if htmlAutoEndTags.contains n then strL ">" else strL "/>")
      else strL ">" ++ writeList cs ++ strL "</" ++ n ++ strL ">")

/-- Serialization of a child list (`write` over `elements`). -/
def writeList : List XmlNode → Str
  | [] => []
  | e :: rest => writeNode e ++ writeList rest

end

/-- `XmlParser.get_xml` on an optional tag: `None` serializes to the empty
string. -/
def serializeOpt : Option XmlNode → Str
  | Option.none => []
  | some e => writeNode e

/-- `WordDocument.__is_the_same_rpr`: equality of the two serialized dumps
(two `None` arguments both dump to the empty string and compare equal). -/
def isSameRpr (r1 r2 : Option XmlNode) : Bool :=
  decide (serializeOpt r1 = serializeOpt r2)

/-- `XmlTag.get_tag(name, mandatory=False)`: the first child tag with the
given name, `None` when absent (text children are skipped). -/
def getTagFirst : List XmlNode → Str → Option XmlNode
  | [], _ => Option.none
  | .text _ :: rest, name => getTagFirst rest name
  | .tag n a cs :: rest, name =>
    if n = name then some (.tag n a cs) else getTagFirst rest name

/-- The `ct` extraction of `collapse_paragraphs`: the first child's content
when that child is a text node. -/
def ctOf : XmlNode → Option Str
  | .tag _ _ (.text c :: _) => some c
  | _ => Option.none

/-- The `xml:space` attribute key. -/
def xmlSpaceK : Str := strL "xml:space"

/-- The merge into `last_t`: a run with no text children gains one through
`add_text` (which resolves entities first); otherwise the first child must
be a text node — an `XmlTag` there has no `append` method and the source
raises `AttributeError` — and the content is appended verbatim; either way
`xml:space="preserve"` is set on `last_t`. -/
def mergeT (ct : Str) : XmlNode → Except PyErr XmlNode
  | .text _ => .error .attrErr
  | .tag n0 a0 cs0 =>
    match cs0 with
    | [] => .ok (.tag n0 (dictSet a0 xmlSpaceK (some (.s (strL "preserve"))))
        [.text (resolveEntities ct)])
    | .text c0 :: cr => .ok (.tag n0 (dictSet a0 xmlSpaceK (some (.s (strL "preserve"))))
        (.text (c0 ++ ct) :: cr))
    | .tag _ _ _ :: _ => .error .attrErr

/-- The merge reaches `last_t` — the first `w:t` child of the registered
run — through the child list. -/
def mergeRunChildren (ct : Str) : List XmlNode → Except PyErr (List XmlNode)
  | [] => .error .nameErr
  | .text c :: rest =>
    match mergeRunChildren ct rest with
    | .error er => .error er
    | .ok rest2 => .ok (.text c :: rest2)
  | .tag n0 a0 cs0 :: rest =>
    if n0 = wtT then
      match mergeT ct (.tag n0 a0 cs0) with
      | .error er => .error er
      | .ok t2 => .ok (t2 :: rest)
    else
      match mergeRunChildren ct rest with
      | .error er => .error er
      | .ok rest2 => .ok (.tag n0 a0 cs0 :: rest2)

/-- Applying the merge to the run registered at position `pos` of the
emitted prefix (the in-place object `last_t` points into). -/
def mergeIntoAcc (acc : List XmlNode) (pos : Nat) (ct : Str) :
    Except PyErr (List XmlNode) :=
  match acc.get? pos with
  | Option.none => .error .idxErr
  | some (.text _) => .error .attrErr
  | some (.tag rn ra rcs) =>
    match mergeRunChildren ct rcs with
    | .error er => .error er
    | .ok rcs2 => .ok (acc.set pos (.tag rn ra rcs2))

/-- What the `w:r` branch of `collapse_paragraphs` decides to do with the
current run: keep it (recording the new `last_rpr`/`last_t` pair, position
included) or delete it, merging its text into the run registered at `pos`. -/
inductive CollapseAct where
  | keep (newLast : Option (Option XmlNode × Nat))
  | mergeInto (pos : Nat) (ct : Str)

/-- The decision itself, read off the source line by line: a run with no
`w:t` (`len(tags) == 0 or t is None` — an empty run has no `w:t`) is kept
and clears `last_t`; one matching the registered `w:rPr` merges when its
text is readable and is kept clearing the state otherwise; any other run is
kept and registers itself at the current end of the processed prefix. -/
def runAction (last : Option (Option XmlNode × Nat)) (cs2 : List XmlNode)
    (accLen : Nat) : CollapseAct :=
  match getTagFirst cs2 wtT with
  | Option.none => .keep Option.none
  | some t =>
    match last with
    | some (lastRpr, _pos) =>
      if isSameRpr lastRpr (getTagFirst cs2 wtRPr) then
        match ctOf t with
        | some ct => .mergeInto _pos ct
        | Option.none => .keep Option.none
      else .keep (some (getTagFirst cs2 wtRPr, accLen))
    | Option.none => .keep (some (getTagFirst cs2 wtRPr, accLen))

/-- `WordDocument.collapse_paragraphs` as a function of the element list:
`acc` is the processed prefix (the part before `idx`), the third argument
models the pair `last_rpr`/`last_t` — `None`, or the registered run's
`w:rPr` together with the position in `acc` of the run holding `last_t`
(`last_rpr` is only ever read under `last_t is not None`, and both are set
together whenever `last_t` becomes not `None`). Children are collapsed
before the node's own checks, as in the source. -/
def collapseLoop : List XmlNode → List XmlNode → Option (Option XmlNode × Nat) →
    Except PyErr (List XmlNode)
  | [], acc, _ => .ok acc
  | .text c :: rest, acc, last => collapseLoop rest (acc ++ [.text c]) last
  | .tag n a cs :: rest, acc, last =>
    match collapseLoop cs [] Option.none with
    | .error er => .error er
    | .ok cs2 =>
      if ignorableTags.contains n ∨ (cs2.isEmpty ∧ ignorableEmptyTags.contains n) then
        collapseLoop rest acc last
      else if n = wtR then
        match runAction last cs2 acc.length with
        | .keep newLast => collapseLoop rest (acc ++ [.tag n a cs2]) newLast
        | .mergeInto pos ct =>
          match mergeIntoAcc acc pos ct with
          | .error er => .error er
          | .ok acc2 => collapseLoop rest acc2 last
      else collapseLoop rest (acc ++ [.tag n a cs2]) last

/-- `collapse_paragraphs(elements)`: the sibling loop from a fresh
`last_rpr = last_t = None` state. -/
def collapseParagraphs (els : List XmlNode) : Except PyErr (List XmlNode) :=
  collapseLoop els [] Option.none

/-- The abstract transition of one kept element on the last-run state: the
next state, or `None` when the element would merge into the registered run
(the action an action-free scan forbids). Text elements and non-run tags
leave the state unchanged; a run with no `w:t` resets it; a run matching
the registered `w:rPr` merges when its text is readable and resets
otherwise; any other run registers itself. -/
def stepState (lr : Option (Option XmlNode)) (n : Str) (cs : List XmlNode) :
    Option (Option (Option XmlNode)) :=
  if n = wtR then
    match getTagFirst cs wtT with
    | Option.none => some Option.none
    | some t =>
      match lr with
      | some r0 =>
        if isSameRpr r0 (getTagFirst cs wtRPr) then
          match ctOf t with
          | some _ => Option.none
          | Option.none => some Option.none
        else some (some (getTagFirst cs wtRPr))
      | Option.none => some (some (getTagFirst cs wtRPr))
  else some lr

/-- The action-free scan: walking `ys` from the abstract last-run state `lr`
(the registered `w:rPr`, position-free) deletes nothing, merges nothing,
finds every tag's children already a fixed point of the child collapse, and
ends in state `lrEnd`. A second collapse pass over a list in this relation
only replays state transitions. -/
def NoActFrom : Option (Option XmlNode) → List XmlNode → Option (Option XmlNode) → Prop
  | lr, [], lrEnd => lrEnd = lr
  | lr, .text _ :: rest, lrEnd => NoActFrom lr rest lrEnd
  | lr, .tag n _ cs :: rest, lrEnd =>
    collapseLoop cs [] Option.none = .ok cs ∧
    ¬ (ignorableTags.contains n ∨ (cs.isEmpty ∧ ignorableEmptyTags.contains n)) ∧
    ∃ lr2, stepState lr n cs = some lr2 ∧ NoActFrom lr2 rest lrEnd

/-- The abstract last-run state `lr` describes the concrete loop state
`last`: both empty, or the same registered `w:rPr` (the position is free —
an action-free scan never reads it). -/
def AlignS : Option (Option XmlNode) → Option (Option XmlNode × Nat) → Prop
  | Option.none, Option.none => True
  | some r, some (r2, _) => r2 = r
  | _, _ => False

theorem NoActFrom_append :
    ∀ (xs : List XmlNode) (a b c : Option (Option XmlNode)) (ys : List XmlNode),
      NoActFrom a xs b → NoActFrom b ys c → NoActFrom a (xs ++ ys) c := by
  intro xs
  induction xs with
  | nil =>
    intro a b c ys h1 h2
    simp only [NoActFrom] at h1
    subst h1
    simp only [List.nil_append]
    exact h2
  | cons e rest ih =>
    intro a b c ys h1 h2
    cases e with
    | text s =>
      simp only [NoActFrom] at h1 ⊢
      exact ih a b c ys h1 h2
    | tag n at0 cs =>
      simp only [NoActFrom] at h1 ⊢
      obtain ⟨hfix, hnig, lr2, hstep, hrest⟩ := h1
      exact ⟨hfix, hnig, lr2, hstep, ih lr2 b c ys hrest h2⟩

theorem stepRun (lr : Option (Option XmlNode)) (last : Option (Option XmlNode × Nat))
    (cs : List XmlNode) (lr2 : Option (Option XmlNode)) (accLen : Nat)
    (ha : AlignS lr last) (hstep : stepState lr wtR cs = some lr2) :
    ∃ last2, runAction last cs accLen = .keep last2 ∧ AlignS lr2 last2 := by
  unfold stepState at hstep
  rw [if_pos (show wtR = wtR from rfl)] at hstep
  unfold runAction
  cases ht : getTagFirst cs wtT with
  | none =>
    rw [ht] at hstep
    obtain rfl : Option.none = lr2 := Option.some.inj hstep
    exact ⟨Option.none, rfl, trivial⟩
  | some t =>
    rw [ht] at hstep
    cases lr with
    | none =>
      cases last with
      | none =>
        obtain rfl : some (getTagFirst cs wtRPr) = lr2 := Option.some.inj hstep
        exact ⟨some (getTagFirst cs wtRPr, accLen), rfl, rfl⟩
      | some p => exact ha.elim
    | some r0 =>
      cases last with
      | none => exact ha.elim
      | some pr =>
        obtain ⟨r2, pos⟩ := pr
        have hr : r2 = r0 := ha
        rw [hr]
        simp only [] at hstep
        by_cases hs : isSameRpr r0 (getTagFirst cs wtRPr) = true
        · rw [if_pos hs] at hstep
          cases hct : ctOf t with
          | some ct => rw [hct] at hstep; exact Option.noConfusion hstep
          | none =>
            rw [hct] at hstep
            obtain rfl : Option.none = lr2 := Option.some.inj hstep
            refine ⟨Option.none, ?_, trivial⟩
            simp only [if_pos hs, hct]
        · rw [if_neg hs] at hstep
          obtain rfl : some (getTagFirst cs wtRPr) = lr2 := Option.some.inj hstep
          refine ⟨some (getTagFirst cs wtRPr, accLen), ?_, rfl⟩
          simp only [if_neg hs]

theorem noact_fixed :
    ∀ (ys : List XmlNode) (lr lrEnd : Option (Option XmlNode))
      (acc : List XmlNode) (last : Option (Option XmlNode × Nat)),
      NoActFrom lr ys lrEnd → AlignS lr last →
      collapseLoop ys acc last = .ok (acc ++ ys) := by
  intro ys
  induction ys with
  | nil =>
    intro lr lrEnd acc last _ _
    simp [collapseLoop]
  | cons e rest ih =>
    intro lr lrEnd acc last h ha
    cases e with
    | text c =>
      simp only [NoActFrom] at h
      rw [collapseLoop]
      exact (ih lr lrEnd (acc ++ [XmlNode.text c]) last h ha).trans (by simp)
    | tag n a cs =>
      simp only [NoActFrom] at h
      obtain ⟨hfix, hnig, lr2, hstep, hrest⟩ := h
      simp only [collapseLoop, hfix]
      rw [if_neg hnig]
      by_cases hn : n = wtR
      · subst hn
        rw [if_pos (show wtR = wtR from rfl)]
        obtain ⟨last2, hra, ha2⟩ := stepRun lr last cs lr2 acc.length ha hstep
        rw [hra]
        exact (ih lr2 lrEnd (acc ++ [XmlNode.tag wtR a cs]) last2 hrest ha2).trans (by simp)
      · rw [if_neg hn]
        unfold stepState at hstep
        rw [if_neg hn] at hstep
        obtain rfl : lr = lr2 := Option.some.inj hstep
        exact (ih lr lrEnd (acc ++ [XmlNode.tag n a cs]) last hrest ha).trans (by simp)

theorem get_append_at {α : Type} (pre : List α) (x : α) (post : List α) :
    (pre ++ x :: post).get? pre.length = some x := by
  induction pre with
  | nil => rfl
  | cons a rest ih => exact ih

theorem set_append_at {α : Type} (pre : List α) (x y : α) (post : List α) :
    (pre ++ x :: post).set pre.length y = pre ++ y :: post := by
  induction pre with
  | nil => rfl
  | cons a rest ih =>
    simp only [List.cons_append, List.length_cons, List.set, List.append_eq]
    exact congrArg (List.cons a) ih

theorem mergeIntoAcc_length (acc : List XmlNode) (pos : Nat) (ct : Str)
    (acc2 : List XmlNode) (h : mergeIntoAcc acc pos ct = .ok acc2) :
    acc2.length = acc.length := by
  unfold mergeIntoAcc at h
  cases hg : acc.get? pos with
  | none => rw [hg] at h; exact Except.noConfusion h
  | some e =>
    cases e with
    | text c => rw [hg] at h; exact Except.noConfusion h
    | tag rn ra rcs =>
      simp only [hg] at h
      cases hm : mergeRunChildren ct rcs with
      | error er => rw [hm] at h; exact Except.noConfusion h
      | ok rcs2 =>
        simp only [hm] at h
        have h2 : acc.set pos (.tag rn ra rcs2) = acc2 := Except.ok.inj h
        rw [← h2]
        exact List.length_set acc pos (XmlNode.tag rn ra rcs2)

theorem collapseLoop_length :
    ∀ (xs acc : List XmlNode) (last : Option (Option XmlNode × Nat)) (ys : List XmlNode),
      collapseLoop xs acc last = .ok ys → ys.length ≤ acc.length + xs.length := by
  intro xs
  induction xs with
  | nil =>
    intro acc last ys h
    simp only [collapseLoop, Except.ok.injEq] at h
    subst h
    simp
  | cons e rest ih =>
    intro acc last ys h
    cases e with
    | text c =>
      rw [collapseLoop] at h
      have := ih (acc ++ [XmlNode.text c]) last ys h
      simp only [List.length_append, List.length_nil, List.length_cons] at this ⊢
      omega
    | tag n a cs =>
      simp only [collapseLoop] at h
      cases hcs : collapseLoop cs [] Option.none with
      | error er => rw [hcs] at h; exact Except.noConfusion h
      | ok cs2 =>
        simp only [hcs] at h
        by_cases hig : ignorableTags.contains n ∨ (cs2.isEmpty ∧ ignorableEmptyTags.contains n)
        · rw [if_pos hig] at h
          have := ih acc last ys h
          simp only [List.length_cons] at this ⊢
          omega
        · rw [if_neg hig] at h
          by_cases hn : n = wtR
          · rw [if_pos hn] at h
            cases hra : runAction last cs2 acc.length with
            | keep newLast =>
              simp only [hra] at h
              have := ih (acc ++ [XmlNode.tag n a cs2]) newLast ys h
              simp only [List.length_append, List.length_nil, List.length_cons] at this ⊢
              omega
            | mergeInto pos ct =>
              simp only [hra] at h
              cases hm : mergeIntoAcc acc pos ct with
              | error er => rw [hm] at h; exact Except.noConfusion h
              | ok acc2 =>
                simp only [hm] at h
                have h1 := ih acc2 last ys h
                have h2 := mergeIntoAcc_length acc pos ct acc2 hm
                simp only [List.length_cons] at h1 ⊢
                omega
          · rw [if_neg hn] at h
            have := ih (acc ++ [XmlNode.tag n a cs2]) last ys h
            simp only [List.length_append, List.length_nil, List.length_cons] at this ⊢
            omega

theorem collapseLoop_prefix :
    ∀ (xs acc : List XmlNode) (last : Option (Option XmlNode × Nat)) (ys : List XmlNode),
      collapseLoop xs acc last = .ok ys → ys.length = acc.length + xs.length →
      ∃ tail, ys = acc ++ tail := by
  intro xs
  induction xs with
  | nil =>
    intro acc last ys h _
    simp only [collapseLoop, Except.ok.injEq] at h
    exact ⟨[], by rw [← h]; simp⟩
  | cons e rest ih =>
    intro acc last ys h hlen
    cases e with
    | text c =>
      rw [collapseLoop] at h
      obtain ⟨tail, htail⟩ := ih (acc ++ [XmlNode.text c]) last ys h
        (by simp only [List.length_append, List.length_nil, List.length_cons] at hlen ⊢; omega)
      exact ⟨XmlNode.text c :: tail, by rw [htail]; simp⟩
    | tag n a cs =>
      simp only [collapseLoop] at h
      cases hcs : collapseLoop cs [] Option.none with
      | error er => rw [hcs] at h; exact Except.noConfusion h
      | ok cs2 =>
        simp only [hcs] at h
        by_cases hig : ignorableTags.contains n ∨ (cs2.isEmpty ∧ ignorableEmptyTags.contains n)
        · rw [if_pos hig] at h
          have := collapseLoop_length rest acc last ys h
          exfalso
          simp only [List.length_cons] at hlen
          omega
        · rw [if_neg hig] at h
          by_cases hn : n = wtR
          · rw [if_pos hn] at h
            cases hra : runAction last cs2 acc.length with
            | keep newLast =>
              simp only [hra] at h
              obtain ⟨tail, htail⟩ := ih (acc ++ [XmlNode.tag n a cs2]) newLast ys h
                (by simp only [List.length_append, List.length_nil,
                      List.length_cons] at hlen ⊢; omega)
              exact ⟨XmlNode.tag n a cs2 :: tail, by rw [htail]; simp⟩
            | mergeInto pos ct =>
              simp only [hra] at h
              cases hm : mergeIntoAcc acc pos ct with
              | error er => rw [hm] at h; exact Except.noConfusion h
              | ok acc2 =>
                simp only [hm] at h
                have h1 := collapseLoop_length rest acc2 last ys h
                have h2 := mergeIntoAcc_length acc pos ct acc2 hm
                exfalso
                simp only [List.length_cons] at hlen
                omega
          · rw [if_neg hn] at h
            obtain ⟨tail, htail⟩ := ih (acc ++ [XmlNode.tag n a cs2]) last ys h
              (by simp only [List.length_append, List.length_nil,
                    List.length_cons] at hlen ⊢; omega)
            exact ⟨XmlNode.tag n a cs2 :: tail, by rw [htail]; simp⟩

theorem runKeep_cases (lr : Option (Option XmlNode)) (last : Option (Option XmlNode × Nat))
    (cs : List XmlNode) (accLen : Nat) (newLast : Option (Option XmlNode × Nat))
    (ha : AlignS lr last) (hra : runAction last cs accLen = .keep newLast) :
    (newLast = Option.none ∧ stepState lr wtR cs = some Option.none) ∨
    (newLast = some (getTagFirst cs wtRPr, accLen) ∧
      stepState lr wtR cs = some (some (getTagFirst cs wtRPr)) ∧
      ∃ t, getTagFirst cs wtT = some t) := by
  unfold runAction at hra
  unfold stepState
  rw [if_pos (show wtR = wtR from rfl)]
  cases ht : getTagFirst cs wtT with
  | none =>
    rw [ht] at hra
    exact Or.inl ⟨(CollapseAct.keep.inj hra).symm, rfl⟩
  | some t =>
    rw [ht] at hra
    cases lr with
    | none =>
      cases last with
      | none => exact Or.inr ⟨(CollapseAct.keep.inj hra).symm, rfl, t, rfl⟩
      | some p => exact ha.elim
    | some r0 =>
      cases last with
      | none => exact ha.elim
      | some pr =>
        obtain ⟨r2, pos⟩ := pr
        have hr : r2 = r0 := ha
        simp only [] at hra
        rw [hr] at hra
        by_cases hs : isSameRpr r0 (getTagFirst cs wtRPr) = true
        · rw [if_pos hs] at hra
          cases hct : ctOf t with
          | some ct0 => rw [hct] at hra; exact CollapseAct.noConfusion hra
          | none =>
            rw [hct] at hra
            refine Or.inl ⟨(CollapseAct.keep.inj hra).symm, ?_⟩
            simp only [if_pos hs, hct]
        · rw [if_neg hs] at hra
          refine Or.inr ⟨(CollapseAct.keep.inj hra).symm, ?_, t, rfl⟩
          simp only [if_neg hs]

theorem runMerge_cases (lr : Option (Option XmlNode)) (last : Option (Option XmlNode × Nat))
    (cs : List XmlNode) (accLen : Nat) (pos : Nat) (ct : Str)
    (ha : AlignS lr last) (hra : runAction last cs accLen = .mergeInto pos ct) :
    ∃ r0, lr = some r0 ∧ last = some (r0, pos) ∧
      isSameRpr r0 (getTagFirst cs wtRPr) = true ∧
      ∃ t, getTagFirst cs wtT = some t ∧ ctOf t = some ct := by
  unfold runAction at hra
  cases ht : getTagFirst cs wtT with
  | none => rw [ht] at hra; exact CollapseAct.noConfusion hra
  | some t =>
    rw [ht] at hra
    cases last with
    | none => exact CollapseAct.noConfusion hra
    | some pr =>
      obtain ⟨r2, pos2⟩ := pr
      simp only [] at hra
      cases lr with
      | none => exact ha.elim
      | some r0 =>
        have hr : r2 = r0 := ha
        subst hr
        by_cases hs : isSameRpr r2 (getTagFirst cs wtRPr) = true
        · rw [if_pos hs] at hra
          cases hct : ctOf t with
          | some ct0 =>
            rw [hct] at hra
            obtain ⟨hp, hc⟩ := CollapseAct.mergeInto.inj hra
            subst hp
            subst hc
            exact ⟨r2, rfl, rfl, hs, t, rfl, hct⟩
          | none => rw [hct] at hra; exact CollapseAct.noConfusion hra
        · rw [if_neg hs] at hra; exact CollapseAct.noConfusion hra

theorem fixed_noact :
    ∀ (xs acc : List XmlNode) (last : Option (Option XmlNode × Nat))
      (lr : Option (Option XmlNode)),
      AlignS lr last → collapseLoop xs acc last = .ok (acc ++ xs) →
      ∃ lrEnd, NoActFrom lr xs lrEnd := by
  intro xs
  induction xs with
  | nil =>
    intro acc last lr _ _
    exact ⟨lr, rfl⟩
  | cons e rest ih =>
    intro acc last lr ha h
    cases e with
    | text c =>
      rw [collapseLoop] at h
      rw [show acc ++ XmlNode.text c :: rest = (acc ++ [XmlNode.text c]) ++ rest by simp] at h
      obtain ⟨lrEnd, hna⟩ := ih (acc ++ [XmlNode.text c]) last lr ha h
      exact ⟨lrEnd, hna⟩
    | tag n a cs =>
      simp only [collapseLoop] at h
      cases hcs : collapseLoop cs [] Option.none with
      | error er => rw [hcs] at h; exact Except.noConfusion h
      | ok cs2 =>
        simp only [hcs] at h
        by_cases hig : ignorableTags.contains n ∨ (cs2.isEmpty ∧ ignorableEmptyTags.contains n)
        · rw [if_pos hig] at h
          have := collapseLoop_length rest acc last _ h
          exfalso
          simp only [List.length_append, List.length_cons] at this
          omega
        · rw [if_neg hig] at h
          by_cases hn : n = wtR
          · subst hn
            rw [if_pos (show wtR = wtR from rfl)] at h
            cases hra : runAction last cs2 acc.length with
            | keep newLast =>
              simp only [hra] at h
              obtain ⟨tail, htail⟩ := collapseLoop_prefix rest
                (acc ++ [XmlNode.tag wtR a cs2]) newLast _ h
                (by simp only [List.length_append, List.length_cons, List.length_nil]; omega)
              have h2 : acc ++ XmlNode.tag wtR a cs :: rest
                  = acc ++ XmlNode.tag wtR a cs2 :: tail := by
                rw [htail]; simp
              have h3 := congrArg (List.drop acc.length) h2
              rw [List.drop_left, List.drop_left] at h3
              obtain ⟨h4, h5⟩ := List.cons.inj h3
              obtain ⟨-, -, h6⟩ := XmlNode.tag.inj h4
              subst h6
              subst h5
              rw [htail] at h
              have h7 : collapseLoop rest (acc ++ [XmlNode.tag wtR a cs]) newLast
                  = .ok ((acc ++ [XmlNode.tag wtR a cs]) ++ rest) := by
                rw [h]
              rcases runKeep_cases lr last cs acc.length newLast ha hra with
                ⟨hnl, hstep⟩ | ⟨hnl, hstep, t, ht⟩
              · subst hnl
                obtain ⟨lrEnd, hna⟩ := ih (acc ++ [XmlNode.tag wtR a cs])
                  Option.none Option.none trivial h7
                exact ⟨lrEnd, hcs, hig, Option.none, hstep, hna⟩
              · subst hnl
                obtain ⟨lrEnd, hna⟩ := ih (acc ++ [XmlNode.tag wtR a cs])
                  (some (getTagFirst cs wtRPr, acc.length))
                  (some (getTagFirst cs wtRPr)) rfl h7
                exact ⟨lrEnd, hcs, hig, some (getTagFirst cs wtRPr), hstep, hna⟩
            | mergeInto pos ct =>
              simp only [hra] at h
              cases hm : mergeIntoAcc acc pos ct with
              | error er => rw [hm] at h; exact Except.noConfusion h
              | ok acc2 =>
                simp only [hm] at h
                have h1 := collapseLoop_length rest acc2 last _ h
                have hml := mergeIntoAcc_length acc pos ct acc2 hm
                exfalso
                simp only [List.length_append, List.length_cons] at h1
                omega
          · rw [if_neg hn] at h
            obtain ⟨tail, htail⟩ := collapseLoop_prefix rest
              (acc ++ [XmlNode.tag n a cs2]) last _ h
              (by simp only [List.length_append, List.length_cons, List.length_nil]; omega)
            have h2 : acc ++ XmlNode.tag n a cs :: rest
                = acc ++ XmlNode.tag n a cs2 :: tail := by
              rw [htail]; simp
            have h3 := congrArg (List.drop acc.length) h2
            rw [List.drop_left, List.drop_left] at h3
            obtain ⟨h4, h5⟩ := List.cons.inj h3
            obtain ⟨-, -, h6⟩ := XmlNode.tag.inj h4
            subst h6
            subst h5
            rw [htail] at h
            have h7 : collapseLoop rest (acc ++ [XmlNode.tag n a cs]) last
                = .ok ((acc ++ [XmlNode.tag n a cs]) ++ rest) := by
              rw [h]
            obtain ⟨lrEnd, hna⟩ := ih (acc ++ [XmlNode.tag n a cs]) last lr ha h7
            refine ⟨lrEnd, hcs, hig, lr, ?_, hna⟩
            unfold stepState
            rw [if_neg hn]

theorem stepState_nonrun (lr : Option (Option XmlNode)) (n : Str) (cs : List XmlNode)
    (hn : ¬ (n = wtR)) : stepState lr n cs = some lr := by
  unfold stepState
  rw [if_neg hn]

theorem wtT_not_ignorable (cs : List XmlNode) :
    ¬ (ignorableTags.contains wtT ∨ (cs.isEmpty ∧ ignorableEmptyTags.contains wtT)) := by
  rintro (h1 | ⟨_, h2⟩)
  · exact absurd h1 (by decide)
  · exact absurd h2 (by decide)

theorem merge_noact :
    ∀ (rcs : List XmlNode) (ct : Str) (rcs2 : List XmlNode),
      mergeRunChildren ct rcs = .ok rcs2 →
      (∀ lr lrE, NoActFrom lr rcs lrE → NoActFrom lr rcs2 lrE) ∧
      getTagFirst rcs2 wtRPr = getTagFirst rcs wtRPr ∧
      (∃ t2, getTagFirst rcs2 wtT = some t2) := by
  intro rcs
  induction rcs with
  | nil => intro ct rcs2 h; exact Except.noConfusion h
  | cons e rest ih =>
    intro ct rcs2 h
    cases e with
    | text c =>
      rw [mergeRunChildren] at h
      cases hm : mergeRunChildren ct rest with
      | error er => rw [hm] at h; exact Except.noConfusion h
      | ok rest2 =>
        simp only [hm] at h
        obtain rfl : XmlNode.text c :: rest2 = rcs2 := Except.ok.inj h
        obtain ⟨hmap, hrpr, ht2⟩ := ih ct rest2 hm
        refine ⟨?_, ?_, ?_⟩
        · intro lr lrE hna
          simp only [NoActFrom] at hna ⊢
          exact hmap lr lrE hna
        · simp only [getTagFirst]
          exact hrpr
        · obtain ⟨t2, ht⟩ := ht2
          exact ⟨t2, by simp only [getTagFirst]; exact ht⟩
    | tag n0 a0 cs0 =>
      rw [mergeRunChildren] at h
      by_cases hn0 : n0 = wtT
      · rw [if_pos hn0] at h
        subst hn0
        cases cs0 with
        | nil =>
          simp only [mergeT] at h
          obtain rfl : XmlNode.tag wtT (dictSet a0 xmlSpaceK (some (.s (strL "preserve"))))
              [XmlNode.text (resolveEntities ct)] :: rest = rcs2 := Except.ok.inj h
          refine ⟨?_, ?_, ?_⟩
          · intro lr lrE hna
            simp only [NoActFrom] at hna ⊢
            obtain ⟨_, _, lr2, hstep0, hrest⟩ := hna
            obtain rfl : lr = lr2 := Option.some.inj
              ((stepState_nonrun lr wtT [] (by decide)).symm.trans hstep0)
            refine ⟨?_, wtT_not_ignorable _, lr, stepState_nonrun lr wtT _ (by decide), hrest⟩
            rw [collapseLoop, collapseLoop]
            simp
          · simp only [getTagFirst, if_neg (show ¬ (wtT = wtRPr) by decide)]
          · exact ⟨_, by simp only [getTagFirst, if_pos (show wtT = wtT from rfl), if_true, ite_true]; rfl⟩
        | cons c0h cr =>
          cases c0h with
          | text c0 =>
            simp only [mergeT] at h
            obtain rfl : XmlNode.tag wtT (dictSet a0 xmlSpaceK (some (.s (strL "preserve"))))
                (XmlNode.text (c0 ++ ct) :: cr) :: rest = rcs2 := Except.ok.inj h
            refine ⟨?_, ?_, ?_⟩
            · intro lr lrE hna
              simp only [NoActFrom] at hna ⊢
              obtain ⟨hfix0, _, lr2, hstep0, hrest⟩ := hna
              obtain rfl : lr = lr2 := Option.some.inj
                ((stepState_nonrun lr wtT _ (by decide)).symm.trans hstep0)
              refine ⟨?_, wtT_not_ignorable _, lr, stepState_nonrun lr wtT _ (by decide), hrest⟩
              obtain ⟨lrE0, hna0⟩ := fixed_noact (XmlNode.text c0 :: cr) [] Option.none
                Option.none trivial (by simpa using hfix0)
              have hna1 : NoActFrom Option.none (XmlNode.text (c0 ++ ct) :: cr) lrE0 := hna0
              have := noact_fixed (XmlNode.text (c0 ++ ct) :: cr) Option.none lrE0 []
                Option.none hna1 trivial
              simpa using this
            · simp only [getTagFirst, if_neg (show ¬ (wtT = wtRPr) by decide)]
            · exact ⟨_, by simp only [getTagFirst, if_pos (show wtT = wtT from rfl), if_true, ite_true]; rfl⟩
          | tag nn aa cc =>
            simp only [mergeT] at h
            exact Except.noConfusion h
      · rw [if_neg hn0] at h
        cases hm : mergeRunChildren ct rest with
        | error er => rw [hm] at h; exact Except.noConfusion h
        | ok rest2 =>
          simp only [hm] at h
          obtain rfl : XmlNode.tag n0 a0 cs0 :: rest2 = rcs2 := Except.ok.inj h
          obtain ⟨hmap, hrpr, ht2⟩ := ih ct rest2 hm
          refine ⟨?_, ?_, ?_⟩
          · intro lr lrE hna
            simp only [NoActFrom] at hna ⊢
            obtain ⟨hfix0, hig0, lr2, hstep0, hrest⟩ := hna
            exact ⟨hfix0, hig0, lr2, hstep0, hmap lr2 lrE hrest⟩
          · by_cases hr0 : n0 = wtRPr
            · simp only [getTagFirst, if_pos hr0]
            · simp only [getTagFirst, if_neg hr0]
              exact hrpr
          · obtain ⟨t2, ht⟩ := ht2
            exact ⟨t2, by simp only [getTagFirst, if_neg hn0]; exact ht⟩

theorem wtR_not_ignorable (cs : List XmlNode) :
    ¬ (ignorableTags.contains wtR ∨ (cs.isEmpty ∧ ignorableEmptyTags.contains wtR)) := by
  rintro (h1 | ⟨_, h2⟩)
  · exact absurd h1 (by decide)
  · exact absurd h2 (by decide)

/-- The shape of the run `last_t` points into: a `w:r` whose collapsed
children expose the registered `w:rPr` and a first `w:t`. -/
def RunTarget : XmlNode → Option XmlNode → Prop
  | .tag n _ cs, r => n = wtR ∧ getTagFirst cs wtRPr = r ∧ ∃ t, getTagFirst cs wtT = some t
  | .text _, _ => False

/-- The pass-1 invariant of the processed prefix: with no registered run the
prefix scans action-free back to the empty state; with a run registered at
position `p` the prefix splits as `pre ++ run :: post` with `pre.length = p`,
the pieces scanning action-free and the elements after the run preserving
the registered state. -/
def GoodAcc : List XmlNode → Option (Option XmlNode × Nat) → Prop
  | acc, Option.none => NoActFrom Option.none acc Option.none
  | acc, some (r, p) =>
    ∃ pre run post lrPre,
      acc = pre ++ run :: post ∧ pre.length = p ∧
      NoActFrom Option.none pre lrPre ∧
      NoActFrom lrPre [run] (some r) ∧
      NoActFrom (some r) post (some r) ∧
      RunTarget run r

theorem goodAssemble (acc : List XmlNode) (last : Option (Option XmlNode × Nat))
    (hg : GoodAcc acc last) :
    ∃ lrE, NoActFrom Option.none acc lrE ∧ AlignS lrE last := by
  cases last with
  | none => exact ⟨Option.none, hg, trivial⟩
  | some rp =>
    obtain ⟨r, p⟩ := rp
    obtain ⟨pre, run, post, lrPre, hacc, _, hpre, hrun, hpost, _⟩ := hg
    refine ⟨some r, ?_, rfl⟩
    rw [hacc, show pre ++ run :: post = pre ++ ([run] ++ post) by simp]
    exact NoActFrom_append pre Option.none lrPre (some r) ([run] ++ post) hpre
      (NoActFrom_append [run] lrPre (some r) (some r) post hrun hpost)

theorem noact_singleton_stable (e : XmlNode) (st : Option (Option XmlNode))
    (hs : ∀ lr, (match e with
      | .text _ => True
      | .tag n _ cs => collapseLoop cs [] Option.none = .ok cs ∧
          ¬ (ignorableTags.contains n ∨ (cs.isEmpty ∧ ignorableEmptyTags.contains n)) ∧
          stepState lr n cs = some lr)) :
    NoActFrom st [e] st := by
  cases e with
  | text c => exact rfl
  | tag n a cs =>
    obtain ⟨h1, h2, h3⟩ := hs st
    exact ⟨h1, h2, st, h3, rfl⟩

theorem goodExtendStable (acc : List XmlNode) (last : Option (Option XmlNode × Nat))
    (e : XmlNode) (hg : GoodAcc acc last)
    (hs : ∀ st : Option (Option XmlNode), NoActFrom st [e] st) :
    GoodAcc (acc ++ [e]) last := by
  cases last with
  | none => exact NoActFrom_append acc Option.none Option.none Option.none [e] hg (hs _)
  | some rp =>
    obtain ⟨r, p⟩ := rp
    obtain ⟨pre, run, post, lrPre, hacc, hlen, hpre, hrun, hpost, htgt⟩ := hg
    refine ⟨pre, run, post ++ [e], lrPre, ?_, hlen, hpre, hrun, ?_, htgt⟩
    · rw [hacc]; simp
    · exact NoActFrom_append post (some r) (some r) (some r) [e] hpost (hs _)

theorem stepReg (lrPre : Option (Option XmlNode)) (cs : List XmlNode) (r : Option XmlNode)
    (h : stepState lrPre wtR cs = some (some r)) :
    getTagFirst cs wtRPr = r ∧ (∃ t, getTagFirst cs wtT = some t) ∧
    (∀ r0, lrPre = some r0 → isSameRpr r0 (getTagFirst cs wtRPr) = false) := by
  unfold stepState at h
  rw [if_pos (show wtR = wtR from rfl)] at h
  cases ht : getTagFirst cs wtT with
  | none =>
    rw [ht] at h
    exact Option.noConfusion (Option.some.inj h)
  | some t =>
    rw [ht] at h
    cases lrPre with
    | none =>
      refine ⟨Option.some.inj (Option.some.inj h), ⟨t, rfl⟩, ?_⟩
      intro r0 h0
      exact Option.noConfusion h0
    | some r0 =>
      simp only [] at h
      by_cases hsr : isSameRpr r0 (getTagFirst cs wtRPr) = true
      · rw [if_pos hsr] at h
        cases hct : ctOf t with
        | some ct0 => rw [hct] at h; exact Option.noConfusion h
        | none =>
          rw [hct] at h
          exact Option.noConfusion (Option.some.inj h)
      · rw [if_neg hsr] at h
        refine ⟨Option.some.inj (Option.some.inj h), ⟨t, rfl⟩, ?_⟩
        intro r0x h0
        obtain rfl : r0 = r0x := Option.some.inj h0
        cases hB : isSameRpr r0 (getTagFirst cs wtRPr) with
        | true => exact absurd hB hsr
        | false => rfl

theorem stepReg_intro (lrPre : Option (Option XmlNode)) (cs : List XmlNode)
    (r : Option XmlNode) (hrpr : getTagFirst cs wtRPr = r)
    (ht : ∃ t, getTagFirst cs wtT = some t)
    (hdiff : ∀ r0, lrPre = some r0 → isSameRpr r0 (getTagFirst cs wtRPr) = false) :
    stepState lrPre wtR cs = some (some r) := by
  obtain ⟨t, ht⟩ := ht
  unfold stepState
  rw [if_pos (show wtR = wtR from rfl), ht]
  cases lrPre with
  | none => rw [hrpr]
  | some r0 =>
    have := hdiff r0 rfl
    simp only []
    rw [if_neg (by rw [this]; exact Bool.false_ne_true), hrpr]

theorem noact_singleton_tag (st : Option (Option XmlNode)) (n : Str)
    (a : List (Str × Option AttrV)) (cs : List XmlNode) (lr2 : Option (Option XmlNode))
    (h1 : collapseLoop cs [] Option.none = .ok cs)
    (h2 : ¬ (ignorableTags.contains n ∨ (cs.isEmpty ∧ ignorableEmptyTags.contains n)))
    (h3 : stepState st n cs = some lr2) :
    NoActFrom st [.tag n a cs] lr2 := by
  simp only [NoActFrom]
  exact ⟨h1, h2, lr2, h3, rfl⟩

theorem xmlNode_sizeOf_pos (e : XmlNode) : 1 ≤ sizeOf e := by
  cases e <;> simp only [XmlNode.tag.sizeOf_spec, XmlNode.text.sizeOf_spec] <;> omega

theorem pass1_noact :
    ∀ (N : Nat) (xs : List XmlNode), sizeOf xs ≤ N →
      ∀ (acc : List XmlNode) (last : Option (Option XmlNode × Nat)) (ys : List XmlNode),
        GoodAcc acc last → collapseLoop xs acc last = .ok ys →
        ∃ lrE, NoActFrom Option.none ys lrE := by
  intro N
  induction N with
  | zero =>
    intro xs hsz acc last ys _ _
    exfalso
    cases xs with
    | nil =>
      simp only [List.nil.sizeOf_spec] at hsz
      omega
    | cons e rest =>
      simp only [List.cons.sizeOf_spec] at hsz
      omega
  | succ N ih =>
    intro xs hsz acc last ys hgood h
    cases xs with
    | nil =>
      simp only [collapseLoop, Except.ok.injEq] at h
      subst h
      obtain ⟨lrE, hna, _⟩ := goodAssemble acc last hgood
      exact ⟨lrE, hna⟩
    | cons e rest =>
      have hszrest : sizeOf rest ≤ N := by
        have := xmlNode_sizeOf_pos e
        simp only [List.cons.sizeOf_spec] at hsz
        omega
      cases e with
      | text c =>
        rw [collapseLoop] at h
        refine ih rest hszrest (acc ++ [XmlNode.text c]) last ys ?_ h
        refine goodExtendStable acc last _ hgood (fun st => ?_)
        simp only [NoActFrom]
      | tag n a cs =>
        have hszcs : sizeOf cs ≤ N := by
          simp only [List.cons.sizeOf_spec, XmlNode.tag.sizeOf_spec] at hsz
          omega
        simp only [collapseLoop] at h
        cases hcs : collapseLoop cs [] Option.none with
        | error er => rw [hcs] at h; exact Except.noConfusion h
        | ok cs2 =>
          simp only [hcs] at h
          have hfix2 : collapseLoop cs2 [] Option.none = .ok cs2 := by
            obtain ⟨lrE0, hna0⟩ := ih cs hszcs [] Option.none cs2 rfl hcs
            have := noact_fixed cs2 Option.none lrE0 [] Option.none hna0 trivial
            simpa using this
          by_cases hig : ignorableTags.contains n ∨ (cs2.isEmpty ∧ ignorableEmptyTags.contains n)
          · rw [if_pos hig] at h
            exact ih rest hszrest acc last ys hgood h
          · rw [if_neg hig] at h
            by_cases hn : n = wtR
            · subst hn
              rw [if_pos (show wtR = wtR from rfl)] at h
              cases hra : runAction last cs2 acc.length with
              | keep newLast =>
                simp only [hra] at h
                obtain ⟨lrE, hnaAcc, haAcc⟩ := goodAssemble acc last hgood
                rcases runKeep_cases lrE last cs2 acc.length newLast haAcc hra with
                  ⟨hnl, hstep⟩ | ⟨hnl, hstep, t, ht⟩
                · subst hnl
                  refine ih rest hszrest _ Option.none ys ?_ h
                  exact NoActFrom_append acc Option.none lrE Option.none _ hnaAcc
                    (noact_singleton_tag lrE wtR a cs2 Option.none hfix2 hig hstep)
                · subst hnl
                  refine ih rest hszrest _ _ ys ?_ h
                  refine ⟨acc, XmlNode.tag wtR a cs2, [], lrE, by simp, rfl, hnaAcc,
                    noact_singleton_tag lrE wtR a cs2 (some (getTagFirst cs2 wtRPr))
                      hfix2 hig hstep, rfl, rfl, rfl, t, ht⟩
              | mergeInto pos ct =>
                simp only [hra] at h
                cases hm : mergeIntoAcc acc pos ct with
                | error er => rw [hm] at h; exact Except.noConfusion h
                | ok acc2 =>
                  simp only [hm] at h
                  obtain ⟨lrE, hnaAcc, haAcc⟩ := goodAssemble acc last hgood
                  obtain ⟨r0, hlr, hlast, hsame, t, ht, hct⟩ :=
                    runMerge_cases lrE last cs2 acc.length pos ct haAcc hra
                  subst hlast
                  obtain ⟨pre, run, post, lrPre, hacc, hlen, hpre, hrun, hpost, htgt⟩ := hgood
                  cases run with
                  | text c => exact htgt.elim
                  | tag nr ar rcs =>
                    obtain ⟨hnr, hrpr, t0, ht0⟩ := htgt
                    subst hnr
                    unfold mergeIntoAcc at hm
                    rw [hacc, ← hlen] at hm
                    simp only [get_append_at] at hm
                    cases hmc : mergeRunChildren ct rcs with
                    | error er => rw [hmc] at hm; exact Except.noConfusion hm
                    | ok rcs2 =>
                      simp only [hmc, set_append_at] at hm
                      obtain rfl : pre ++ XmlNode.tag wtR ar rcs2 :: post = acc2 :=
                        Except.ok.inj hm
                      obtain ⟨hmapN, hrprEq, t2ex⟩ := merge_noact rcs ct rcs2 hmc
                      simp only [NoActFrom] at hrun
                      obtain ⟨hfixr, higr, lr2, hstepr0, hendr⟩ := hrun
                      obtain rfl : some r0 = lr2 := hendr
                      obtain ⟨hrpr2, ht2old, hdiff⟩ := stepReg lrPre rcs r0 hstepr0
                      have hfixr2 : collapseLoop rcs2 [] Option.none = .ok rcs2 := by
                        obtain ⟨lrE1, hna1⟩ := fixed_noact rcs [] Option.none Option.none
                          trivial (by simpa using hfixr)
                        have hna2 := hmapN Option.none lrE1 hna1
                        have := noact_fixed rcs2 Option.none lrE1 [] Option.none hna2 trivial
                        simpa using this
                      have hstepr2 : stepState lrPre wtR rcs2 = some (some r0) :=
                        stepReg_intro lrPre rcs2 r0 (hrprEq.trans hrpr2) t2ex
                          (fun rx hx => by rw [hrprEq]; exact hdiff rx hx)
                      refine ih rest hszrest _ _ ys ?_ h
                      exact ⟨pre, XmlNode.tag wtR ar rcs2, post, lrPre, rfl, hlen, hpre,
                        noact_singleton_tag lrPre wtR ar rcs2 (some r0) hfixr2
                          (wtR_not_ignorable _) hstepr2, hpost,
                        rfl, hrprEq.trans hrpr2, t2ex⟩
            · rw [if_neg hn] at h
              refine ih rest hszrest _ last ys ?_ h
              exact goodExtendStable acc last _ hgood (fun st =>
                noact_singleton_tag st n a cs2 st hfix2 hig (stepState_nonrun st n cs2 hn))

/-- C8: the run-collapsing pass is idempotent — whenever a collapse pass
succeeds on an element list, collapsing its output again succeeds and
returns that output unchanged, so two passes produce the same tree as
one. -/
theorem claimC8 (xs ys : List XmlNode)
    (h : collapseParagraphs xs = .ok ys) :
    collapseParagraphs ys = .ok ys := by
  unfold collapseParagraphs at h ⊢
  obtain ⟨lrE, hna⟩ := pass1_noact (sizeOf xs) xs le_rfl [] Option.none ys rfl h
  have := noact_fixed ys Option.none lrE [] Option.none hna trivial
  simpa using this

/-- Two adjacent runs with the same (absent) `w:rPr`. -/
def c8run1 : XmlNode := .tag wtR [] [.tag wtT [] [.text (strL "a")]]

/-- The second run, merged away by the pass. -/
def c8run2 : XmlNode := .tag wtR [] [.tag wtT [] [.text (strL "b")]]

/-- The collapse of the two runs: the texts concatenated into the first
run's `w:t`, which gains `xml:space="preserve"`. -/
def c8merged : XmlNode :=
  .tag wtR [] [.tag wtT [(xmlSpaceK, some (.s (strL "preserve")))] [.text (strL "ab")]]

/-- C8 witness: a pass that merges two same-style runs, and the second pass
leaving its output untouched. -/
theorem claimC8_witness :
    collapseParagraphs [c8run1, c8run2] = .ok [c8merged] ∧
    collapseParagraphs [c8merged] = .ok [c8merged] := by
  have h1 : collapseParagraphs [c8run1, c8run2] = .ok [c8merged] := by
    simp only [collapseParagraphs, c8run1, c8run2, c8merged, collapseLoop, runAction,
      getTagFirst, ctOf, mergeIntoAcc, mergeRunChildren, mergeT, isSameRpr, serializeOpt,
      dictSet, xmlSpaceK]
    rfl
  exact ⟨h1, claimC8 [c8run1, c8run2] [c8merged] h1⟩

end Catslap
